import Mathlib

/-!
Verification of the WireGuard GitHub action (`src/main.ts`, `src/cleanup.ts`).

Strings of the JavaScript program are modelled as `List Char`.  The two
regular expressions used by the program, `/^KEY\s*=.*/m` (first-match
replacement) and `/^KEY\s*=.*\n?/gm` (global removal), are embedded
operationally: both patterns are deterministic — `\s*` is greedy and `=`
is not a whitespace character, so backtracking can never produce a match
that the maximal-munch scan misses, and `.*` (no dotall flag) is the
maximal run of non-line-terminator characters.  A position is a match
start for `^` (multiline) iff it is the string start or the previous
character is one of the JavaScript line terminators.

`Buffer.from(s, "base64")` is modelled after Node's lenient decoder:
characters outside the base64 alphabet (both `+/` and the url-safe `-_`
forms) are skipped, a `=` stops decoding, and a trailing group of 2 or 3
sextets contributes 1 or 2 bytes.  `buf.toString("utf-8")` is a
replacement-character UTF-8 decoder; the replacement branches are never
exercised by the theorems below, which only decode valid encodings.
-/

abbrev Str := List Char

/-- JavaScript line terminators: LF, CR, LINE SEPARATOR, PARAGRAPH SEPARATOR. -/
def isLineTerm (c : Char) : Bool :=
  c = Char.ofNat 10 || c = Char.ofNat 13 || c = Char.ofNat 8232 || c = Char.ofNat 8233

/-- Characters matched by JavaScript `\s` (WhiteSpace plus LineTerminator). -/
def isJsWs (c : Char) : Bool :=
  c = Char.ofNat 9 || c = Char.ofNat 10 || c = Char.ofNat 11 || c = Char.ofNat 12 ||
  c = Char.ofNat 13 || c = Char.ofNat 32 || c = Char.ofNat 160 || c = Char.ofNat 5760 ||
  (8192 ≤ c.toNat && c.toNat ≤ 8202) || c = Char.ofNat 8232 || c = Char.ofNat 8233 ||
  c = Char.ofNat 8239 || c = Char.ofNat 8287 || c = Char.ofNat 12288 || c = Char.ofNat 65279

/-- Negation of `isLineTerm`, the character class of `.` without dotall. -/
def notLT (c : Char) : Bool := !isLineTerm c

/-- Drops an expected literal prefix, returning the remainder on success. -/
def dropPrefixCh : Str → Str → Option Str
  | [], s => some s
  | _ :: _, [] => none
  | k :: ks, c :: cs => if k = c then dropPrefixCh ks cs else none

/-- Attempts to match `KEY\s*=.*` at the head of `s` (the body of the
`/^KEY\s*=.*/` patterns of `main.ts`).  Returns the matched region and the
remaining suffix. -/
def matchAssign (key s : Str) : Option (Str × Str) :=
  match dropPrefixCh key s with
  | none => none
  | some t1 =>
    match t1.dropWhile isJsWs with
    | [] => none
    | c :: t3 =>
      if c = '=' then
        some (key ++ t1.takeWhile isJsWs ++ c :: t3.takeWhile notLT, t3.dropWhile notLT)
      else none

/-- Scans for the first multiline-anchored match of `^KEY\s*=.*`, as the
non-global `String.prototype.replace` does.  The flag records whether the
current position is a `^` position.  Returns (prefix, match, suffix). -/
def findAssign (key : Str) : Bool → Str → Option (Str × Str × Str)
  | _, [] => none
  | b, c :: cs =>
    match (if b then matchAssign key (c :: cs) else none) with
    | some (m, r) => some ([], m, r)
    | none =>
      match findAssign key (isLineTerm c) cs with
      | some (p, m, r) => some (c :: p, m, r)
      | none => none

/-- JavaScript `GetSubstitution` for a replacement string with no capture
groups: `$$`, `$&` (the match), the dollar-backquote form (text before the
match) and the dollar-quote form (text after the match) are substituted,
everything else is literal. -/
def getSubstitution (matched before after : Str) : Str → Str
  | [] => []
  | c :: t =>
    if c = '$' then
      match t with
      | [] => [c]
      | d :: t2 =>
        if d = '$' then '$' :: getSubstitution matched before after t2
        else if d = '&' then matched ++ getSubstitution matched before after t2
        else if d = Char.ofNat 96 then before ++ getSubstitution matched before after t2
        else if d = Char.ofNat 39 then after ++ getSubstitution matched before after t2
        else c :: getSubstitution matched before after (d :: t2)
    else c :: getSubstitution matched before after t

/-- Models `s.replace(/^KEY\s*=.*/m, repl)`: the first match is replaced,
with JavaScript `$`-substitution applied to the replacement string. -/
def replaceFirst (key repl s : Str) : Str :=
  match findAssign key true s with
  | none => s
  | some (p, m, r) => p ++ getSubstitution m p r repl ++ r

/-- Fueled scan for `s.replace(/^KEY\s*=.*\n?/gm, "")`: every multiline
match (plus an optional trailing LF) is removed; scanning resumes after
each removed region.  After a region not ending in a consumed LF the
previous character is `=` or a `.*` character, never a line terminator,
so the flag resumes as `false`. -/
def removeAllF (key : Str) : Nat → Bool → Str → Str
  | 0, _, s => s
  | _ + 1, _, [] => []
  | fuel + 1, b, c :: cs =>
    match (if b then matchAssign key (c :: cs) else none) with
    | some (_, r) =>
      match r with
      | r0 :: r2 =>
        if r0 = '\n' then removeAllF key fuel true r2 else removeAllF key fuel false (r0 :: r2)
      | [] => []
    | none => c :: removeAllF key fuel (isLineTerm c) cs

/-- Models the global removal `s.replace(/^KEY\s*=.*\n?/gm, "")`. -/
def removeAll (key s : Str) : Str := removeAllF key s.length true s

def dnsKey : Str := "DNS".toList

def ipsKey : Str := "AllowedIPs".toList

/-- Models `removeDnsConfig` of `main.ts`: the content is returned
unchanged unless `/^DNS\s*=.*/m` matches, in which case every match of
the global pattern (with trailing newline) is removed. -/
def removeDnsConfig (configContent : Str) : Str :=
  if (findAssign dnsKey true configContent).isSome then
    removeAll dnsKey configContent
  else configContent

/-- The base64 alphabet, in value order. -/
def base64Alphabet : Str := "ABCDEFGHIJKLMNOPQRSTUVWXYZabcdefghijklmnopqrstuvwxyz0123456789+/".toList

/-- Index of a character in a list, if present. -/
def alphaIdx (c : Char) : Str → Option Nat
  | [] => none
  | d :: ds => if d = c then some 0 else (alphaIdx c ds).map (· + 1)

/-- Node's `unbase64` table: the 64 alphabet characters plus the url-safe
`-` and `_`; everything else is invalid. -/
def unbase64 (c : Char) : Option Nat :=
  if c = '-' then some 62 else if c = '_' then some 63 else alphaIdx c base64Alphabet

/-- Node's lenient base64 scan: invalid characters are skipped, `=` stops
decoding, valid characters yield their sextet values. -/
def collectVals : Str → List Nat
  | [] => []
  | c :: cs =>
    if c = '=' then []
    else
      match unbase64 c with
      | some v => v :: collectVals cs
      | none => collectVals cs

/-- Turns the sextet stream into bytes: full groups of four give three
bytes, a trailing pair gives one byte, a trailing triple gives two, a
single leftover sextet gives nothing. -/
def decodeGroups : List Nat → List Nat
  | a :: b :: c :: d :: rest =>
    (a * 4 + b / 16) :: (b % 16 * 16 + c / 4) :: (c % 4 * 64 + d) :: decodeGroups rest
  | [a, b] => [a * 4 + b / 16]
  | [a, b, c] => [a * 4 + b / 16, b % 16 * 16 + c / 4]
  | _ => []

/-- UTF-8 encoding of a Unicode scalar value. -/
def utf8EncodeNat (n : Nat) : List Nat :=
  if n < 128 then [n]
  else if n < 2048 then [192 + n / 64, 128 + n % 64]
  else if n < 65536 then [224 + n / 4096, 128 + n / 64 % 64, 128 + n % 64]
  else [240 + n / 262144, 128 + n / 4096 % 64, 128 + n / 64 % 64, 128 + n % 64]

/-- UTF-8 encoding of a string. -/
def utf8Encode : Str → List Nat
  | [] => []
  | c :: t => utf8EncodeNat c.toNat ++ utf8Encode t

/-- The replacement character U+FFFD. -/
def replChar : Char := Char.ofNat 65533

/-- Whether a byte is a UTF-8 continuation byte. -/
def isCont (b : Nat) : Bool := 128 ≤ b && b < 192

/-- Decodes a two-byte UTF-8 sequence, rejecting bad continuation bytes
and overlong encodings. -/
def utf8Dec2 (b b1 : Nat) : Char :=
  if isCont b1 then
    if 128 ≤ (b - 192) * 64 + (b1 - 128) then Char.ofNat ((b - 192) * 64 + (b1 - 128))
    else replChar
  else replChar

/-- Decodes a three-byte UTF-8 sequence, rejecting bad continuation
bytes, overlong encodings and surrogates. -/
def utf8Dec3 (b b1 b2 : Nat) : Char :=
  if isCont b1 && isCont b2 then
    if 2048 ≤ (b - 224) * 4096 + (b1 - 128) * 64 + (b2 - 128) &&
       !((55296 ≤ (b - 224) * 4096 + (b1 - 128) * 64 + (b2 - 128) : Bool) &&
         ((b - 224) * 4096 + (b1 - 128) * 64 + (b2 - 128) < 57344 : Bool)) then
      Char.ofNat ((b - 224) * 4096 + (b1 - 128) * 64 + (b2 - 128))
    else replChar
  else replChar

/-- Decodes a four-byte UTF-8 sequence, rejecting bad continuation bytes,
overlong encodings and values beyond U+10FFFF. -/
def utf8Dec4 (b b1 b2 b3 : Nat) : Char :=
  if isCont b1 && isCont b2 && isCont b3 then
    if (65536 ≤ (b - 240) * 262144 + (b1 - 128) * 4096 + (b2 - 128) * 64 + (b3 - 128) : Bool) &&
       ((b - 240) * 262144 + (b1 - 128) * 4096 + (b2 - 128) * 64 + (b3 - 128) < 1114112 : Bool) then
      Char.ofNat ((b - 240) * 262144 + (b1 - 128) * 4096 + (b2 - 128) * 64 + (b3 - 128))
    else replChar
  else replChar

/-- Fueled replacement-character UTF-8 decoding.  Recovery after an
invalid or truncated sequence is approximate (the remaining bytes of the
broken sequence are skipped); no theorem below decodes invalid input. -/
def utf8DecodeF : Nat → List Nat → Str
  | 0, _ => []
  | _ + 1, [] => []
  | fuel + 1, b :: bs =>
    if b < 128 then Char.ofNat b :: utf8DecodeF fuel bs
    else if b < 192 then replChar :: utf8DecodeF fuel bs
    else if b < 224 then
      match bs with
      | [] => [replChar]
      | b1 :: bs1 => utf8Dec2 b b1 :: utf8DecodeF fuel bs1
    else if b < 240 then
      match bs with
      | b1 :: b2 :: bs2 => utf8Dec3 b b1 b2 :: utf8DecodeF fuel bs2
      | _ => [replChar]
    else if b < 248 then
      match bs with
      | b1 :: b2 :: b3 :: bs3 => utf8Dec4 b b1 b2 b3 :: utf8DecodeF fuel bs3
      | _ => [replChar]
    else replChar :: utf8DecodeF fuel bs

/-- Replacement-character UTF-8 decoding (`buf.toString("utf-8")`). -/
def utf8Decode (bs : List Nat) : Str := utf8DecodeF bs.length bs

/-- Models `Buffer.from(s, "base64").toString("utf-8")`. -/
def nodeBase64ToString (s : Str) : Str := utf8Decode (decodeGroups (collectVals s))

/-- Whether `needle` is a prefix of `hay`. -/
def beginsWith : Str → Str → Bool
  | [], _ => true
  | _ :: _, [] => false
  | a :: as_, b :: bs => a = b && beginsWith as_ bs

/-- Models `hay.includes(needle)`. -/
def containsSub (needle : Str) : Str → Bool
  | [] => needle.isEmpty
  | c :: cs => beginsWith needle (c :: cs) || containsSub needle cs

def interfaceMarker : Str := "[Interface]".toList

/-- Models `decodeConfig` of `main.ts`: the lenient base64 decoding is
adopted when it contains `[Interface]`, otherwise the raw input is used.
The decoder is total, so the catch branch of the source has no effect. -/
def decodeConfig (wgConfig : Str) : Str :=
  if containsSub interfaceMarker (nodeBase64ToString wgConfig) then
    nodeBase64ToString wgConfig
  else wgConfig

/-- The replacement string built by the template literal of `main.ts`. -/
def ipsReplacement (allowedIps : Str) : Str := "AllowedIPs = ".toList ++ allowedIps

/-- Models the `AllowedIPs` override step of `run` (`if (allowedIps)` is
skipped for the empty string, the only falsy input value). -/
def ipsStep (allowedIps s : Str) : Str :=
  if allowedIps.isEmpty then s else replaceFirst ipsKey (ipsReplacement allowedIps) s

/-- Models the DNS step of `run`: `removeDnsConfig` runs unless `keep-dns`
was set. -/
def dnsStepKeep (keepDns : Bool) (s : Str) : Str :=
  if keepDns then s else removeDnsConfig s

/-- The full configuration transformation of `run`: decode, override
`AllowedIPs`, strip DNS. -/
def transformConfig (wgConfig allowedIps : Str) (keepDns : Bool) : Str :=
  dnsStepKeep keepDns (ipsStep allowedIps (decodeConfig wgConfig))

/-- Standard base64 encoding of a byte sequence, with padding. -/
def base64EncodeBytes : List Nat → Str
  | [] => []
  | [b] => [base64Alphabet.getD (b / 4) 'A', base64Alphabet.getD (b % 4 * 16) 'A', '=', '=']
  | [b1, b2] =>
    [base64Alphabet.getD (b1 / 4) 'A', base64Alphabet.getD (b1 % 4 * 16 + b2 / 16) 'A',
     base64Alphabet.getD (b2 % 16 * 4) 'A', '=']
  | b1 :: b2 :: b3 :: rest =>
    base64Alphabet.getD (b1 / 4) 'A' :: base64Alphabet.getD (b1 % 4 * 16 + b2 / 16) 'A' ::
    base64Alphabet.getD (b2 % 16 * 4 + b3 / 64) 'A' :: base64Alphabet.getD (b3 % 64) 'A' ::
    base64EncodeBytes rest

/-- Base64 encoding of the UTF-8 bytes of a string: how a caller prepares
an encoded `wg-config-file` input. -/
def base64EncodeStr (s : Str) : Str := base64EncodeBytes (utf8Encode s)

/-- Strict RFC 4648 base64 syntax: length a multiple of four, at most two
trailing padding characters, everything before them in the alphabet. -/
def isStrictBase64 (s : Str) : Bool :=
  (s.length % 4 == 0) &&
  Nat.ble (s.reverse.takeWhile (fun c => c = '=')).length 2 &&
  (s.take (s.length - (s.reverse.takeWhile (fun c => c = '=')).length)).all
    (fun c => (alphaIdx c base64Alphabet).isSome)

/-- Splits a string at LF characters; the result is never empty, and a
trailing LF yields a final empty segment. -/
def splitLF : Str → List Str
  | [] => [[]]
  | c :: t =>
    if c = '\n' then [] :: splitLF t
    else
      match splitLF t with
      | [] => [[c]]
      | l :: ls => (c :: l) :: ls

/-- Joins segments with LF; inverse of `splitLF`. -/
def joinLF : List Str → Str
  | [] => []
  | [l] => l
  | l :: ls => l ++ '\n' :: joinLF ls

/-- Spec-side notion of a line matching a `KEY = value` assignment: the
key at the line start, then optional whitespace, then `=`, all within the
line. -/
def lineMatches (key l : Str) : Bool :=
  match dropPrefixCh key l with
  | none => false
  | some t =>
    match t.dropWhile isJsWs with
    | c :: _ => c = '='
    | [] => false

/-- A line is well formed for a key when the key prefix, if present, is
followed by some non-whitespace character on the same line (so the `\s*`
of the pattern cannot run off the end of the line). -/
def goodSeg (key l : Str) : Bool :=
  match dropPrefixCh key l with
  | none => true
  | some t => !(t.dropWhile isJsWs).isEmpty

/-- A string free of every line terminator. -/
def ltFree (l : Str) : Bool := l.all notLT

/-- A string whose only line terminators are LF. -/
def onlyLF (s : Str) : Bool := s.all (fun c => c = '\n' || notLT c)

/-- Every line of `s` is well formed for `key`. -/
def goodSegs (key s : Str) : Bool := (splitLF s).all (goodSeg key)

/-- Spec-side first-match line replacement: the first line matching the
key assignment is replaced by `newLine`, everything else untouched. -/
def replaceLineFirst (key newLine : Str) : List Str → List Str
  | [] => []
  | l :: ls =>
    if lineMatches key l then newLine :: ls else l :: replaceLineFirst key newLine ls

/-- Spec-side global line removal: every matching line is removed together
with its trailing newline.  A matching final line has no trailing newline,
so its removal leaves an empty final segment. -/
def removeLines (key : Str) : List Str → List Str
  | [] => []
  | [l] => if lineMatches key l then [[]] else [l]
  | l :: l2 :: ls =>
    if lineMatches key l then removeLines key (l2 :: ls) else l :: removeLines key (l2 :: ls)

/-- A JavaScript thrown value: an `Error` carrying a message, or any
other thrown value (`instanceof Error` fails). -/
inductive JsErr
  | err (msg : Str)
  | nonError
deriving DecidableEq

/-- Outcome of one external side-effecting call. -/
inductive Outcome
  | ok
  | fail (e : JsErr)
deriving DecidableEq

/-- Observable actions of the two phases: host-runtime log calls, the
fatal `setFailed` call, persisted state, spawned commands, file writes. -/
inductive Event
  | info (msg : Str)
  | warning (msg : Str)
  | setFailed (msg : Str)
  | saveState (stKey stVal : Str)
  | cmd (tool : Str) (args : List Str)
  | fileWrite (path content : Str)
deriving DecidableEq

/-- Environment of `cleanup`: the outcome of each external call it can
make, in program order. -/
structure CleanupEnv where
  ipLinkShow : Outcome
  wgQuickDown : Outcome
  testConfig : Outcome
  rmConfig : Outcome
deriving DecidableEq

/-- The inner catch around `wg-quick down`: an `Error` is logged as a
warning, any other thrown value is swallowed. -/
def downCatch : JsErr → List Event
  | .err m => [Event.warning ("Failed to stop WireGuard: ".toList ++ m)]
  | .nonError => []

/-- The top-level catch of `cleanup`: always a warning, never fatal. -/
def outerCatch : JsErr → List Event
  | .err m => [Event.warning ("Cleanup failed: ".toList ++ m)]
  | .nonError => [Event.warning ("Cleanup failed with unknown error".toList)]

/-- The stop-interface section of `cleanup`: the probe result decides the
branch, and a failing `wg-quick down` is downgraded by the inner catch. -/
def stopSection (env : CleanupEnv) : List Event :=
  match env.ipLinkShow with
  | .ok =>
    [Event.info ("Stopping WireGuard connection...".toList),
     Event.cmd ("sudo".toList) [("wg-quick".toList), ("down".toList), ("wg0".toList)]] ++
    (match env.wgQuickDown with
     | .ok => [Event.info ("WireGuard connection stopped".toList)]
     | .fail e => downCatch e)
  | .fail _ => [Event.info ("WireGuard interface wg0 not found, skipping disconnect".toList)]

/-- Models `cleanup` of `cleanup.ts`: probe the interface, best-effort
`down`, probe the config file, delete it; a failing delete reaches the
top-level catch and becomes a warning. -/
def cleanupEvents (env : CleanupEnv) : List Event :=
  [Event.info ("Starting WireGuard cleanup...".toList),
   Event.cmd ("ip".toList) [("link".toList), ("show".toList), ("wg0".toList)]] ++
  stopSection env ++
  [Event.cmd ("sudo".toList) [("test".toList), ("-f".toList), ("/etc/wireguard/wg0.conf".toList)]] ++
  (match env.testConfig with
   | .ok =>
     [Event.info ("Removing WireGuard configuration...".toList),
      Event.cmd ("sudo".toList) [("rm".toList), ("-f".toList), ("/etc/wireguard/wg0.conf".toList)]] ++
     (match env.rmConfig with
      | .ok =>
        [Event.info ("WireGuard configuration removed".toList),
         Event.info ("WireGuard cleanup completed".toList)]
      | .fail e => outerCatch e)
   | .fail _ =>
     [Event.info ("WireGuard config file not found, skipping cleanup".toList),
      Event.info ("WireGuard cleanup completed".toList)])

/-- Environment of `run`: the inputs and the outcome of each external
call, in program order. -/
structure RunEnv where
  wgConfigInput : Option Str
  allowedIps : Str
  keepDns : Bool
  aptUpdate : Outcome
  aptInstall : Outcome
  mkdirConfig : Outcome
  writeTmp : Outcome
  mvConfig : Outcome
  chmodConfig : Outcome
  wgUp : Outcome
  wgShow : Outcome
deriving DecidableEq

/-- Message of the top-level catch of `run`. -/
def fatalOf : JsErr → Str
  | .err m => "Action failed: ".toList ++ m
  | .nonError => "Action failed with unknown error".toList

/-- Log lines emitted during the pure transform step of `run`. -/
def transformEvents (cfg allowedIps : Str) (keepDns : Bool) : List Event :=
  (if allowedIps.isEmpty then []
   else [Event.info ("Overriding AllowedIPs with: ".toList ++ allowedIps)]) ++
  (if keepDns then []
   else if (findAssign dnsKey true (ipsStep allowedIps (decodeConfig cfg))).isSome then
     [Event.info ("Removing DNS setting to prevent resolvconf hang...".toList)]
   else [])

def sudoStr : Str := "sudo".toList

def aptUpdateArgs : List Str := [("apt-get".toList), ("update".toList)]

def aptInstallArgs : List Str :=
  [("apt-get".toList), ("install".toList), ("-y".toList), ("wireguard".toList),
   ("wireguard-tools".toList), ("resolvconf".toList)]

def mkdirArgs : List Str := [("mkdir".toList), ("-p".toList), ("/etc/wireguard".toList)]

def mvArgs : List Str :=
  [("mv".toList), ("/tmp/wg0.conf".toList), ("/etc/wireguard/wg0.conf".toList)]

def chmodArgs : List Str := [("chmod".toList), ("600".toList), ("/etc/wireguard/wg0.conf".toList)]

def wgUpArgs : List Str := [("wg-quick".toList), ("up".toList), ("wg0".toList)]

def wgShowArgs : List Str := [("wg".toList), ("show".toList)]

/-- Models `run` of `main.ts`: the whole body is inside one try; the
first failing step reaches the catch, which calls `setFailed` and ends
the phase.  `saveState` is the very last step. -/
def runEvents (env : RunEnv) : List Event :=
  match env.wgConfigInput with
  | none =>
    [Event.setFailed (fatalOf (JsErr.err ("Input required and not supplied: wg-config-file".toList)))]
  | some cfg =>
    [Event.info ("Installing WireGuard...".toList), Event.cmd sudoStr aptUpdateArgs] ++
    (match env.aptUpdate with
     | .fail e => [Event.setFailed (fatalOf e)]
     | .ok =>
       [Event.cmd sudoStr aptInstallArgs] ++
       (match env.aptInstall with
        | .fail e => [Event.setFailed (fatalOf e)]
        | .ok =>
          transformEvents cfg env.allowedIps env.keepDns ++
          [Event.info ("Setting up WireGuard configuration...".toList),
           Event.cmd sudoStr mkdirArgs] ++
          (match env.mkdirConfig with
           | .fail e => [Event.setFailed (fatalOf e)]
           | .ok =>
             (match env.writeTmp with
              | .fail e => [Event.setFailed (fatalOf e)]
              | .ok =>
                [Event.fileWrite ("/tmp/wg0.conf".toList)
                   (transformConfig cfg env.allowedIps env.keepDns),
                 Event.cmd sudoStr mvArgs] ++
                (match env.mvConfig with
                 | .fail e => [Event.setFailed (fatalOf e)]
                 | .ok =>
                   [Event.cmd sudoStr chmodArgs] ++
                   (match env.chmodConfig with
                    | .fail e => [Event.setFailed (fatalOf e)]
                    | .ok =>
                      [Event.info ("Starting WireGuard connection...".toList),
                       Event.cmd sudoStr wgUpArgs] ++
                      (match env.wgUp with
                       | .fail e => [Event.setFailed (fatalOf e)]
                       | .ok =>
                         [Event.info ("WireGuard connection established".toList),
                          Event.cmd sudoStr wgShowArgs] ++
                         (match env.wgShow with
                          | .fail e => [Event.setFailed (fatalOf e)]
                          | .ok =>
                            [Event.saveState ("wireguard-started".toList) ("true".toList)]))))))))

/-- First thrown error among setup steps 1-6 (package refresh, install,
directory create, write, move, chmod, tunnel up), in program order. -/
def firstSetupErr (env : RunEnv) : Option JsErr :=
  match env.aptUpdate with
  | .fail e => some e
  | .ok =>
    match env.aptInstall with
    | .fail e => some e
    | .ok =>
      match env.mkdirConfig with
      | .fail e => some e
      | .ok =>
        match env.writeTmp with
        | .fail e => some e
        | .ok =>
          match env.mvConfig with
          | .fail e => some e
          | .ok =>
            match env.chmodConfig with
            | .fail e => some e
            | .ok =>
              match env.wgUp with
              | .fail e => some e
              | .ok => none

/-- Whether a suffix is empty or begins with a line terminator (the two
shapes that can follow a line in a larger string). -/
def ltHeadedB : Str → Bool
  | [] => true
  | c :: _ => isLineTerm c

/-- Line-level counterpart of `findAssign`: the first matching line, with
the joined text before and after it. -/
def findLines (key : Str) : List Str → Option (Str × Str × Str)
  | [] => none
  | [l] => if lineMatches key l then some ([], l, []) else none
  | l :: l2 :: ls =>
    if lineMatches key l then some ([], l, '\n' :: joinLF (l2 :: ls))
    else (findLines key (l2 :: ls)).map (fun x => (l ++ '\n' :: x.1, x.2.1, x.2.2))

/-- Line-level counterpart of the `AllowedIPs` override step. -/
def ipsLinesStep (v : Str) (segs : List Str) : List Str :=
  if v.isEmpty then segs else replaceLineFirst ipsKey (ipsReplacement v) segs

/-- Line-level counterpart of the DNS step. -/
def dnsLinesKeep (keep : Bool) (segs : List Str) : List Str :=
  if keep then segs else removeLines dnsKey segs

/-- Whether an event is a warning log. -/
def isWarningEv : Event → Bool
  | .warning _ => true
  | _ => false

theorem dropWhile_append_of_ne {p : Char → Bool} : ∀ (t x : Str), t.dropWhile p ≠ [] →
    (t ++ x).dropWhile p = t.dropWhile p ++ x := by
  intro t x h
  induction t with
  | nil => exact absurd rfl h
  | cons c t ih =>
    by_cases hc : p c = true
    · rw [List.dropWhile_cons_of_pos hc] at h
      rw [List.cons_append, List.dropWhile_cons_of_pos hc, List.dropWhile_cons_of_pos hc]
      exact ih h
    · rw [List.cons_append, List.dropWhile_cons_of_neg hc, List.dropWhile_cons_of_neg hc]
      simp

theorem takeWhile_append_of_ne {p : Char → Bool} : ∀ (t x : Str), t.dropWhile p ≠ [] →
    (t ++ x).takeWhile p = t.takeWhile p := by
  intro t x h
  induction t with
  | nil => exact absurd rfl h
  | cons c t ih =>
    by_cases hc : p c = true
    · rw [List.dropWhile_cons_of_pos hc] at h
      rw [List.cons_append, List.takeWhile_cons_of_pos hc, List.takeWhile_cons_of_pos hc, ih h]
    · rw [List.cons_append, List.takeWhile_cons_of_neg hc, List.takeWhile_cons_of_neg hc]

theorem dropWhile_append_of_all {p : Char → Bool} : ∀ (t x : Str), t.all p = true →
    (t ++ x).dropWhile p = x.dropWhile p := by
  intro t x h
  induction t with
  | nil => simp
  | cons c t ih =>
    simp only [List.all_cons, Bool.and_eq_true] at h
    rw [List.cons_append, List.dropWhile_cons_of_pos h.1]
    exact ih h.2

theorem takeWhile_append_of_all {p : Char → Bool} : ∀ (t x : Str), t.all p = true →
    (t ++ x).takeWhile p = t ++ x.takeWhile p := by
  intro t x h
  induction t with
  | nil => simp
  | cons c t ih =>
    simp only [List.all_cons, Bool.and_eq_true] at h
    rw [List.cons_append, List.takeWhile_cons_of_pos h.1, ih h.2, List.cons_append]

theorem dropPrefixCh_eq_some : ∀ {key s t : Str}, dropPrefixCh key s = some t → s = key ++ t := by
  intro key
  induction key with
  | nil => intro s t h; simp [dropPrefixCh] at h; simp [h]
  | cons k ks ih =>
    intro s t h
    cases s with
    | nil => simp [dropPrefixCh] at h
    | cons c cs =>
      simp only [dropPrefixCh] at h
      by_cases hk : k = c
      · simp only [hk, if_pos rfl] at h
        simp [hk, ih h]
      · simp [hk] at h

theorem dropPrefixCh_append : ∀ (key t : Str), dropPrefixCh key (key ++ t) = some t := by
  intro key t
  induction key with
  | nil => simp [dropPrefixCh]
  | cons k ks ih => simp [dropPrefixCh, ih]

/-- The matched region and remainder reassemble to the input, and the
matched region is nonempty. -/
theorem matchAssign_eq_append {key s m r : Str} (h : matchAssign key s = some (m, r)) :
    s = m ++ r ∧ m ≠ [] := by
  unfold matchAssign at h
  split at h
  · exact absurd h (by simp)
  next t1 hd =>
    split at h
    · exact absurd h (by simp)
    next c t3 ht =>
      by_cases hc : c = '='
      · rw [if_pos hc] at h
        simp only [Option.some.injEq, Prod.mk.injEq] at h
        obtain ⟨hm, hr⟩ := h
        have hs : s = key ++ t1 := dropPrefixCh_eq_some hd
        have ht1 : t1 = t1.takeWhile isJsWs ++ (c :: t3) := by
          conv_lhs => rw [← List.takeWhile_append_dropWhile (p := isJsWs) (l := t1)]
          rw [ht]
        have ht3 : t3 = t3.takeWhile notLT ++ t3.dropWhile notLT :=
          (List.takeWhile_append_dropWhile ..).symm
        constructor
        · rw [hs, ht1, ← hm, ← hr]
          conv_lhs => rw [ht3]
          simp
        · rw [← hm]; simp
      · rw [if_neg hc] at h
        exact absurd h (by simp)

theorem matchAssign_r_len {key s m r : Str} (h : matchAssign key s = some (m, r)) :
    r.length < s.length := by
  obtain ⟨hs, hm⟩ := matchAssign_eq_append h
  rw [hs, List.length_append]
  cases m with
  | nil => exact absurd rfl hm
  | cons a as => simp

/-- The remainder after a match is empty or starts with a line terminator. -/
theorem matchAssign_r_head {key s m r : Str} (h : matchAssign key s = some (m, r)) :
    r = [] ∨ ∃ c cs, r = c :: cs ∧ isLineTerm c = true := by
  unfold matchAssign at h
  split at h
  · exact absurd h (by simp)
  next t1 hd =>
    split at h
    · exact absurd h (by simp)
    next c t3 ht =>
      by_cases hc : c = '='
      · rw [if_pos hc] at h
        simp only [Option.some.injEq, Prod.mk.injEq] at h
        obtain ⟨_, hr⟩ := h
        cases hr3 : t3.dropWhile notLT with
        | nil => left; rw [← hr, hr3]
        | cons d ds =>
          right
          refine ⟨d, ds, by rw [← hr, hr3], ?_⟩
          have h1 : (t3.dropWhile notLT).head? = some d := by rw [hr3]; rfl
          have h2 := List.head?_dropWhile_not notLT t3
          rw [h1] at h2
          simp only [Option.all_some] at h2
          simpa [notLT] using h2
      · rw [if_neg hc] at h
        exact absurd h (by simp)

theorem all_of_sublist {p : Char → Bool} {l1 l2 : Str} (hs : l1.Sublist l2)
    (h : l2.all p = true) : l1.all p = true :=
  List.all_eq_true.mpr fun x hx => List.all_eq_true.mp h x (hs.subset hx)

theorem takeWhile_ltHeaded {sfx : Str} (hsfx : ltHeadedB sfx = true) :
    sfx.takeWhile notLT = [] := by
  cases sfx with
  | nil => rfl
  | cons c cs =>
    have : notLT c = false := by simp [notLT, ltHeadedB] at hsfx ⊢; exact hsfx
    rw [List.takeWhile_cons_of_neg (by simp [this])]

theorem dropWhile_ltHeaded {sfx : Str} (hsfx : ltHeadedB sfx = true) :
    sfx.dropWhile notLT = sfx := by
  cases sfx with
  | nil => rfl
  | cons c cs =>
    have : notLT c = false := by simp [notLT, ltHeadedB] at hsfx ⊢; exact hsfx
    rw [List.dropWhile_cons_of_neg (by simp [this])]

/-- On a well-formed line that matches, `matchAssign` consumes exactly the
line and leaves the suffix. -/
theorem matchAssign_seg_pos {key l sfx : Str} (hl : ltFree l = true) (hg : goodSeg key l = true)
    (hm : lineMatches key l = true) (hsfx : ltHeadedB sfx = true) :
    matchAssign key (l ++ sfx) = some (l, sfx) := by
  unfold lineMatches at hm
  split at hm
  · exact absurd hm (by simp)
  next t hd =>
    cases ht : t.dropWhile isJsWs with
    | nil => rw [ht] at hm; exact absurd hm (by simp)
    | cons c rest =>
      rw [ht] at hm
      have hc : c = '=' := by simpa using hm
      subst hc
      have hlt : l = key ++ t := dropPrefixCh_eq_some hd
      have htAll : t.all notLT = true := by
        have h2 := hl
        rw [hlt] at h2
        unfold ltFree at h2
        rw [List.all_append, Bool.and_eq_true] at h2
        exact h2.2
      have hrestAll : rest.all notLT = true := by
        refine all_of_sublist ?_ htAll
        have h1 : (List.cons '=' rest).Sublist t := ht ▸ List.dropWhile_sublist ..
        exact (List.sublist_cons_self '=' rest).trans h1
      have hne : t.dropWhile isJsWs ≠ [] := by rw [ht]; simp
      have hPB : dropPrefixCh key (l ++ sfx) = some (t ++ sfx) := by
        rw [hlt, List.append_assoc, dropPrefixCh_append]
      have hDW : (t ++ sfx).dropWhile isJsWs = '=' :: (rest ++ sfx) := by
        rw [dropWhile_append_of_ne _ _ hne, ht, List.cons_append]
      have hTW : (t ++ sfx).takeWhile isJsWs = t.takeWhile isJsWs :=
        takeWhile_append_of_ne _ _ hne
      simp only [matchAssign, hPB, hDW, hTW, if_pos rfl]
      rw [takeWhile_append_of_all _ _ hrestAll, dropWhile_append_of_all _ _ hrestAll]
      rw [takeWhile_ltHeaded hsfx, dropWhile_ltHeaded hsfx, List.append_nil]
      have hmEq : key ++ t.takeWhile isJsWs ++ '=' :: rest = l := by
        rw [hlt]
        conv_rhs => rw [← List.takeWhile_append_dropWhile (p := isJsWs) (l := t), ht]
        simp
      rw [hmEq]
      simp

theorem dropPrefixCh_seg_none {key : Str} : ∀ {l sfx : Str}, ltFree key = true →
    dropPrefixCh key l = none → ltHeadedB sfx = true →
    dropPrefixCh key (l ++ sfx) = none := by
  intro l
  induction l generalizing key with
  | nil =>
    intro sfx hkLT hd hsfx
    cases key with
    | nil => simp [dropPrefixCh] at hd
    | cons k ks =>
      cases sfx with
      | nil => rfl
      | cons c cs =>
        simp only [List.nil_append, dropPrefixCh]
        have hk : notLT k = true := by
          simp only [ltFree, List.all_cons, Bool.and_eq_true] at hkLT
          exact hkLT.1
        have hc : isLineTerm c = true := by simpa [ltHeadedB] using hsfx
        have hne : k ≠ c := by
          intro he
          rw [he] at hk
          simp [notLT, hc] at hk
        rw [if_neg hne]
  | cons a l ih =>
    intro sfx hkLT hd hsfx
    cases key with
    | nil => simp [dropPrefixCh] at hd
    | cons k ks =>
      simp only [dropPrefixCh, List.cons_append] at hd ⊢
      by_cases hk : k = a
      · rw [if_pos hk] at hd ⊢
        have hksLT : ltFree ks = true := by
          simp only [ltFree, List.all_cons, Bool.and_eq_true] at hkLT
          exact hkLT.2
        exact ih hksLT hd hsfx
      · rw [if_neg hk]

/-- On a well-formed line that does not match, `matchAssign` fails however
the string continues (provided the continuation starts a new line). -/
theorem matchAssign_seg_neg {key l sfx : Str} (hkLT : ltFree key = true)
    (hg : goodSeg key l = true) (hm : lineMatches key l = false) (hsfx : ltHeadedB sfx = true) :
    matchAssign key (l ++ sfx) = none := by
  cases hd : dropPrefixCh key l with
  | none =>
    have hPB := dropPrefixCh_seg_none hkLT hd hsfx
    simp only [matchAssign, hPB]
  | some t =>
    have hlt : l = key ++ t := dropPrefixCh_eq_some hd
    have hPB : dropPrefixCh key (l ++ sfx) = some (t ++ sfx) := by
      rw [hlt, List.append_assoc, dropPrefixCh_append]
    have hgt : ¬(t.dropWhile isJsWs).isEmpty = true := by
      unfold goodSeg at hg
      rw [hd] at hg
      simpa using hg
    cases ht : t.dropWhile isJsWs with
    | nil => rw [ht] at hgt; simp at hgt
    | cons c rest =>
      have hne : t.dropWhile isJsWs ≠ [] := by rw [ht]; simp
      have hDW : (t ++ sfx).dropWhile isJsWs = c :: (rest ++ sfx) := by
        rw [dropWhile_append_of_ne _ _ hne, ht, List.cons_append]
      have hcne : ¬(c = '=') := by
        unfold lineMatches at hm
        simp only [hd, ht] at hm
        simpa using hm
      simp only [matchAssign, hPB, hDW, if_neg hcne]

theorem lineMatches_ne_nil {key l : Str} (hk : key ≠ []) (hm : lineMatches key l = true) :
    l ≠ [] := by
  intro hl
  subst hl
  cases key with
  | nil => exact absurd rfl hk
  | cons k ks => simp [lineMatches, dropPrefixCh] at hm

/-- Scanning with the line-start flag off walks over terminator-free text. -/
theorem findAssign_false_ltFree {key : Str} : ∀ {l : Str} (sfx : Str), ltFree l = true →
    findAssign key false (l ++ sfx) =
      (findAssign key false sfx).map (fun x => (l ++ x.1, x.2.1, x.2.2)) := by
  intro l
  induction l with
  | nil =>
    intro sfx _
    cases h : findAssign key false sfx with
    | none => simp [h]
    | some x => simp [h]
  | cons c l ih =>
    intro sfx hl
    simp only [ltFree, List.all_cons, Bool.and_eq_true] at hl
    have hc : isLineTerm c = false := by simpa [notLT] using hl.1
    have hrec := ih sfx hl.2
    cases hfs : findAssign key false sfx with
    | none =>
      rw [hfs] at hrec
      simp only [Option.map_none'] at hrec
      simp [List.cons_append, findAssign, hc, hrec, hfs]
    | some x =>
      rw [hfs] at hrec
      simp only [Option.map_some'] at hrec
      simp [List.cons_append, findAssign, hc, hrec, hfs]

/-- A newline is never part of a match for a terminator-free key, and
turns the line-start flag on. -/
theorem findAssign_newline {key : Str} (hk : key ≠ []) (hkLT : ltFree key = true) (b : Bool)
    (t : Str) : findAssign key b ('\n' :: t) =
      (findAssign key true t).map (fun x => ('\n' :: x.1, x.2.1, x.2.2)) := by
  have hmn : matchAssign key ('\n' :: t) = none := by
    cases key with
    | nil => exact absurd rfl hk
    | cons k ks =>
      have hkc : k ≠ '\n' := by
        simp only [ltFree, List.all_cons, Bool.and_eq_true] at hkLT
        intro he
        have h1 := hkLT.1
        rw [he] at h1
        simp [notLT, isLineTerm, Char.ofNat] at h1
      simp [matchAssign, dropPrefixCh, hkc]
  have hlt : isLineTerm '\n' = true := by decide
  simp only [findAssign, hmn, hlt]
  cases b <;> simp <;> cases findAssign key true t <;> simp

theorem ltHeadedB_newline (t : Str) : ltHeadedB ('\n' :: t) = true := by
  show isLineTerm '\n' = true
  decide

theorem findAssign_cons_some {key : Str} {c : Char} {cs m r : Str}
    (hma : matchAssign key (c :: cs) = some (m, r)) :
    findAssign key true (c :: cs) = some ([], m, r) := by
  simp [findAssign, hma]

theorem findAssign_cons_none {key : Str} {c : Char} {cs : Str}
    (hma : matchAssign key (c :: cs) = none) :
    findAssign key true (c :: cs) =
      (findAssign key (isLineTerm c) cs).map (fun x => (c :: x.1, x.2.1, x.2.2)) := by
  cases h : findAssign key (isLineTerm c) cs with
  | none => simp [findAssign, hma, h]
  | some x => simp [findAssign, hma, h]

/-- On well-formed terminator-free lines, the multiline regex scan finds
exactly the first matching line. -/
theorem findAssign_lines {key : Str} (hk : key ≠ []) (hkLT : ltFree key = true) :
    ∀ segs : List Str, (∀ l ∈ segs, ltFree l = true) → (∀ l ∈ segs, goodSeg key l = true) →
      findAssign key true (joinLF segs) = findLines key segs := by
  intro segs
  induction segs with
  | nil => intro _ _; rfl
  | cons l ls ih =>
    intro hLT hg
    have hlLT : ltFree l = true := hLT l (by simp)
    have hlg : goodSeg key l = true := hg l (by simp)
    cases ls with
    | nil =>
      show findAssign key true (joinLF [l]) = findLines key [l]
      by_cases hm : lineMatches key l = true
      · have hma : matchAssign key l = some (l, []) := by
          have h1 := @matchAssign_seg_pos key l [] hlLT hlg hm (by rfl)
          simpa using h1
        rcases l with _ | ⟨c, cs⟩
        · exact absurd rfl (lineMatches_ne_nil hk hm)
        · show findAssign key true (c :: cs) = findLines key [c :: cs]
          rw [findAssign_cons_some hma]
          simp [findLines, hm]
      · have hmb : lineMatches key l = false := by simpa using hm
        have hma : matchAssign key l = none := by
          have h1 := @matchAssign_seg_neg key l [] hkLT hlg hmb (by rfl)
          simpa using h1
        rcases l with _ | ⟨c, cs⟩
        · simp [joinLF, findLines, hmb, findAssign]
        · show findAssign key true (c :: cs) = findLines key [c :: cs]
          simp only [ltFree, List.all_cons, Bool.and_eq_true] at hlLT
          have hcLT : isLineTerm c = false := by simpa [notLT] using hlLT.1
          rw [findAssign_cons_none hma, hcLT]
          have h2 := @findAssign_false_ltFree key cs [] hlLT.2
          simp only [List.append_nil] at h2
          rw [h2]
          simp [findLines, hmb, findAssign]
    | cons l2 ls2 =>
      show findAssign key true (joinLF (l :: l2 :: ls2)) = findLines key (l :: l2 :: ls2)
      have hrest : joinLF (l :: l2 :: ls2) = l ++ '\n' :: joinLF (l2 :: ls2) := by
        simp [joinLF]
      have hih := ih (fun x hx => hLT x (by simp [hx])) (fun x hx => hg x (by simp [hx]))
      by_cases hm : lineMatches key l = true
      · have hma : matchAssign key (l ++ '\n' :: joinLF (l2 :: ls2)) =
            some (l, '\n' :: joinLF (l2 :: ls2)) :=
          matchAssign_seg_pos hlLT hlg hm (ltHeadedB_newline _)
        rcases l with _ | ⟨c, cs⟩
        · exact absurd rfl (lineMatches_ne_nil hk hm)
        · rw [hrest]
          rw [List.cons_append] at hma ⊢
          rw [findAssign_cons_some (by simpa using hma)]
          simp [findLines, hm]
      · have hmb : lineMatches key l = false := by simpa using hm
        have hma : matchAssign key (l ++ '\n' :: joinLF (l2 :: ls2)) = none :=
          matchAssign_seg_neg hkLT hlg hmb (ltHeadedB_newline _)
        rcases l with _ | ⟨c, cs⟩
        · rw [hrest, List.nil_append, findAssign_newline hk hkLT, hih]
          simp only [findLines, hmb, if_false, Bool.false_eq_true]
          cases findLines key (l2 :: ls2) with
          | none => simp
          | some x => simp
        · rw [List.cons_append] at hma
          simp only [ltFree, List.all_cons, Bool.and_eq_true] at hlLT
          have hcLT : isLineTerm c = false := by simpa [notLT] using hlLT.1
          rw [hrest, List.cons_append, findAssign_cons_none hma, hcLT]
          rw [findAssign_false_ltFree ('\n' :: joinLF (l2 :: ls2)) hlLT.2]
          rw [findAssign_newline hk hkLT, hih]
          simp only [findLines, hmb, if_false, Bool.false_eq_true, Option.map_map]
          cases findLines key (l2 :: ls2) with
          | none => simp
          | some x => simp

/-- A replacement string without a dollar sign is substituted verbatim. -/
theorem getSubstitution_no_dollar {m b a : Str} : ∀ {repl : Str},
    repl.all (fun c => !(c = '$')) = true → getSubstitution m b a repl = repl := by
  intro repl
  induction repl with
  | nil => intro _; rfl
  | cons c t ih =>
    intro h
    simp only [List.all_cons, Bool.and_eq_true] at h
    have hc : ¬(c = '$') := by simpa using h.1
    cases t with
    | nil => simp [getSubstitution, hc]
    | cons d t2 => simp [getSubstitution, hc, ih h.2]

theorem replaceLineFirst_no_match {key n : Str} : ∀ {segs : List Str},
    (∀ l ∈ segs, lineMatches key l = false) → replaceLineFirst key n segs = segs := by
  intro segs
  induction segs with
  | nil => intro _; rfl
  | cons l ls ih =>
    intro h
    have h0 : lineMatches key l = false := h l (by simp)
    simp [replaceLineFirst, h0, ih fun x hx => h x (by simp [hx])]

theorem replaceLineFirst_length {key n : Str} : ∀ (segs : List Str),
    (replaceLineFirst key n segs).length = segs.length := by
  intro segs
  induction segs with
  | nil => rfl
  | cons l ls ih =>
    by_cases hm : lineMatches key l = true
    · simp [replaceLineFirst, hm]
    · simp only [replaceLineFirst, if_neg hm]
      simp [ih]

theorem joinLF_cons_of_ne_nil {l : Str} {ls : List Str} (h : ls ≠ []) :
    joinLF (l :: ls) = l ++ '\n' :: joinLF ls := by
  cases ls with
  | nil => exact absurd rfl h
  | cons a as => rfl

theorem findLines_none_no_match {key : Str} : ∀ {segs : List Str},
    findLines key segs = none → ∀ l ∈ segs, lineMatches key l = false := by
  intro segs
  induction segs with
  | nil => intro _ l hl; simp at hl
  | cons l0 ls ih =>
    intro hf l hl
    rw [List.mem_cons] at hl
    cases ls with
    | nil =>
      have hm : lineMatches key l0 = false := by
        by_contra hc
        have hc2 : lineMatches key l0 = true := by simpa using hc
        simp [findLines, hc2] at hf
      rcases hl with hl | hl
      · rw [hl]; exact hm
      · simp at hl
    | cons l2 ls2 =>
      have hm : lineMatches key l0 = false := by
        by_contra hc
        have hc2 : lineMatches key l0 = true := by simpa using hc
        simp [findLines, hc2] at hf
      have hrec : findLines key (l2 :: ls2) = none := by
        simp only [findLines, hm] at hf
        simpa using hf
      rcases hl with hl | hl
      · rw [hl]; exact hm
      · exact ih hrec l hl

theorem joinLF_replaceLineFirst {key n : Str} : ∀ {segs : List Str} {pre m post : Str},
    findLines key segs = some (pre, m, post) →
      joinLF (replaceLineFirst key n segs) = pre ++ n ++ post := by
  intro segs
  induction segs with
  | nil => intro pre m post h; simp [findLines] at h
  | cons l ls ih =>
    intro pre m post h
    by_cases hm : lineMatches key l = true
    · cases ls with
      | nil =>
        simp only [findLines, hm, if_true] at h
        simp only [Option.some.injEq, Prod.mk.injEq] at h
        obtain ⟨h1, _, h3⟩ := h
        simp [replaceLineFirst, hm, joinLF, ← h1, ← h3]
      | cons l2 ls2 =>
        simp only [findLines, hm, if_true] at h
        simp only [Option.some.injEq, Prod.mk.injEq] at h
        obtain ⟨h1, _, h3⟩ := h
        simp only [replaceLineFirst, hm, if_true]
        rw [joinLF_cons_of_ne_nil (by simp), ← h1, ← h3]
        simp
    · have hmf : lineMatches key l = false := by simpa using hm
      cases ls with
      | nil => simp [findLines, hmf] at h
      | cons l2 ls2 =>
        simp only [findLines, hmf] at h
        rw [if_neg (by simp), Option.map_eq_some'] at h
        obtain ⟨x, hx, hxe⟩ := h
        obtain ⟨p1, m1, r1⟩ := x
        simp only [Prod.mk.injEq] at hxe
        obtain ⟨h1, h2, h3⟩ := hxe
        have hne : replaceLineFirst key n (l2 :: ls2) ≠ [] := by
          intro hc
          have hlen := @replaceLineFirst_length key n (l2 :: ls2)
          rw [hc] at hlen
          simp at hlen
        have hstep : replaceLineFirst key n (l :: l2 :: ls2) =
            l :: replaceLineFirst key n (l2 :: ls2) := by
          rw [replaceLineFirst, if_neg (by simp [hmf])]
        rw [hstep, joinLF_cons_of_ne_nil hne, ih hx, ← h1, ← h3]
        simp

/-- The first-match replacement of `main.ts`, on well-formed input with a
dollar-free replacement string, is exactly the spec-side replacement of
the first matching line. -/
theorem replaceFirst_lines {key repl : Str} (hk : key ≠ []) (hkLT : ltFree key = true)
    (hrepl : repl.all (fun c => !(c = '$')) = true) (segs : List Str)
    (hLT : ∀ l ∈ segs, ltFree l = true) (hg : ∀ l ∈ segs, goodSeg key l = true) :
    replaceFirst key repl (joinLF segs) = joinLF (replaceLineFirst key repl segs) := by
  have hfa := findAssign_lines hk hkLT segs hLT hg
  cases hf : findLines key segs with
  | none =>
    rw [hf] at hfa
    simp only [replaceFirst, hfa]
    rw [replaceLineFirst_no_match (findLines_none_no_match hf)]
  | some x =>
    obtain ⟨pre, m, post⟩ := x
    rw [hf] at hfa
    simp only [replaceFirst, hfa]
    rw [joinLF_replaceLineFirst hf, getSubstitution_no_dollar hrepl]

theorem removeAllF_nil (key : Str) (fuel : Nat) (b : Bool) : removeAllF key fuel b [] = [] := by
  cases fuel <;> rfl

theorem matchAssign_newline_none {key : Str} (hk : key ≠ []) (hkLT : ltFree key = true)
    (t : Str) : matchAssign key ('\n' :: t) = none := by
  cases key with
  | nil => exact absurd rfl hk
  | cons k ks =>
    have hkc : k ≠ '\n' := by
      simp only [ltFree, List.all_cons, Bool.and_eq_true] at hkLT
      intro he
      have h1 := hkLT.1
      rw [he] at h1
      simp [notLT, isLineTerm, Char.ofNat] at h1
    simp [matchAssign, dropPrefixCh, hkc]

/-- The fuel is irrelevant as long as it covers the string length. -/
theorem removeAllF_congr (key : Str) : ∀ (f1 : Nat) {f2 : Nat} {b : Bool} {s : Str},
    s.length ≤ f1 → s.length ≤ f2 → removeAllF key f1 b s = removeAllF key f2 b s := by
  intro f1
  induction f1 with
  | zero =>
    intro f2 b s h1 _
    have hs : s = [] := by cases s <;> simp_all
    subst hs
    rw [removeAllF_nil, removeAllF_nil]
  | succ f ih =>
    intro f2 b s h1 h2
    cases s with
    | nil => rw [removeAllF_nil, removeAllF_nil]
    | cons c cs =>
      cases f2 with
      | zero => simp at h2
      | succ f2p =>
        simp only [List.length_cons, Nat.add_le_add_iff_right] at h1 h2
        cases hb : b with
        | false =>
          simp only [removeAllF, Bool.false_eq_true, if_false]
          rw [@ih f2p (isLineTerm c) cs (by omega) (by omega)]
        | true =>
          cases hma : matchAssign key (c :: cs) with
          | none =>
            simp only [removeAllF, if_true, hma]
            rw [@ih f2p (isLineTerm c) cs (by omega) (by omega)]
          | some x =>
            obtain ⟨m, r⟩ := x
            have hrl := matchAssign_r_len hma
            simp only [List.length_cons] at hrl
            simp only [removeAllF, if_true, hma]
            cases r with
            | nil => rfl
            | cons r0 r2 =>
              simp only [List.length_cons] at hrl
              dsimp only
              by_cases hr0 : r0 = '\n'
              · rw [if_pos hr0, if_pos hr0, @ih f2p true r2 (by omega) (by omega)]
              · rw [if_neg hr0, if_neg hr0,
                  @ih f2p false (r0 :: r2) (by simp only [List.length_cons]; omega)
                    (by simp only [List.length_cons]; omega)]

/-- With the line-start flag off, terminator-free text is copied. -/
theorem removeAllF_false_ltFree (key : Str) : ∀ {l : Str} (sfx : Str) (fuel : Nat),
    ltFree l = true → (l ++ sfx).length ≤ fuel →
    removeAllF key fuel false (l ++ sfx) = l ++ removeAllF key sfx.length false sfx := by
  intro l
  induction l with
  | nil =>
    intro sfx fuel _ hf
    simp only [List.nil_append]
    exact removeAllF_congr key fuel (by simpa using hf) (by rfl)
  | cons c l ih =>
    intro sfx fuel hl hf
    simp only [ltFree, List.all_cons, Bool.and_eq_true] at hl
    have hc : isLineTerm c = false := by simpa [notLT] using hl.1
    cases fuel with
    | zero => simp at hf
    | succ f =>
      simp only [List.cons_append, removeAllF, Bool.false_eq_true, if_false, hc, List.append_eq]
      rw [ih sfx f hl.2 (by simp at hf ⊢; omega)]

/-- A leading newline is copied and turns the line-start flag on. -/
theorem removeAllF_newline (key : Str) (hk : key ≠ []) (hkLT : ltFree key = true)
    (t : Str) (fuel : Nat) (b : Bool) (hf : ('\n' :: t).length ≤ fuel) :
    removeAllF key fuel b ('\n' :: t) = '\n' :: removeAllF key t.length true t := by
  cases fuel with
  | zero => simp at hf
  | succ f =>
    have hma := matchAssign_newline_none hk hkLT t
    have hlt : isLineTerm '\n' = true := by decide
    cases b with
    | false =>
      simp only [removeAllF, Bool.false_eq_true, if_false, hlt]
      rw [removeAllF_congr key f (by simp at hf; omega) (by rfl)]
    | true =>
      simp only [removeAllF, if_true, hma, hlt]
      rw [removeAllF_congr key f (by simp at hf; omega) (by rfl)]

theorem removeLines_ne_nil {key : Str} : ∀ {segs : List Str}, segs ≠ [] →
    removeLines key segs ≠ [] := by
  intro segs
  induction segs with
  | nil => intro h; exact absurd rfl h
  | cons l ls ih =>
    intro _
    cases ls with
    | nil =>
      by_cases hm : lineMatches key l = true
      · simp [removeLines, hm]
      · simp [removeLines, hm]
    | cons l2 ls2 =>
      by_cases hm : lineMatches key l = true
      · simp only [removeLines, hm, if_true]
        exact ih (by simp)
      · simp only [removeLines]
        rw [if_neg hm]
        simp

theorem lineMatches_nil {key : Str} (hk : key ≠ []) : lineMatches key [] = false := by
  cases key with
  | nil => exact absurd rfl hk
  | cons k ks => simp [lineMatches, dropPrefixCh]

theorem removeLines_no_match_id {key : Str} : ∀ {segs : List Str},
    (∀ l ∈ segs, lineMatches key l = false) → removeLines key segs = segs := by
  intro segs
  induction segs with
  | nil => intro _; rfl
  | cons l ls ih =>
    intro h
    have h0 : lineMatches key l = false := h l (by simp)
    cases ls with
    | nil => simp [removeLines, h0]
    | cons l2 ls2 =>
      simp only [removeLines]
      rw [if_neg (by simp [h0]), ih fun x hx => h x (by simp [hx])]

theorem removeLines_no_match {key : Str} (hk : key ≠ []) : ∀ {segs : List Str},
    ∀ l ∈ removeLines key segs, lineMatches key l = false := by
  intro segs
  induction segs with
  | nil => intro l hl; simp [removeLines] at hl
  | cons l0 ls ih =>
    intro l hl
    cases ls with
    | nil =>
      by_cases hm : lineMatches key l0 = true
      · simp only [removeLines, hm, if_true] at hl
        simp only [List.mem_singleton] at hl
        rw [hl]
        exact lineMatches_nil hk
      · simp only [removeLines, if_neg hm] at hl
        simp only [List.mem_singleton] at hl
        rw [hl]
        simpa using hm
    | cons l2 ls2 =>
      by_cases hm : lineMatches key l0 = true
      · simp only [removeLines, hm, if_true] at hl
        exact ih l hl
      · simp only [removeLines, if_neg hm] at hl
        rw [List.mem_cons] at hl
        rcases hl with hl | hl
        · rw [hl]; simpa using hm
        · exact ih l hl

/-- The global removal of `main.ts`, on well-formed input, removes exactly
the matching lines (with their trailing newlines). -/
theorem removeAll_lines {key : Str} (hk : key ≠ []) (hkLT : ltFree key = true) :
    ∀ (segs : List Str) (fuel : Nat), (∀ l ∈ segs, ltFree l = true) →
      (∀ l ∈ segs, goodSeg key l = true) → (joinLF segs).length ≤ fuel →
      removeAllF key fuel true (joinLF segs) = joinLF (removeLines key segs) := by
  intro segs
  induction segs with
  | nil =>
    intro fuel _ _ _
    rw [show joinLF [] = [] from rfl, removeAllF_nil]
    rfl
  | cons l ls ih =>
    intro fuel hLT hg hf
    have hlLT := hLT l (by simp)
    have hlg := hg l (by simp)
    cases ls with
    | nil =>
      by_cases hm : lineMatches key l = true
      · have hma : matchAssign key l = some (l, []) := by
          have h1 := @matchAssign_seg_pos key l [] hlLT hlg hm (by rfl)
          simpa using h1
        rcases l with _ | ⟨c, cs⟩
        · exact absurd rfl (lineMatches_ne_nil hk hm)
        · cases fuel with
          | zero => simp [joinLF] at hf
          | succ f =>
            show removeAllF key (f + 1) true (c :: cs) = joinLF (removeLines key [c :: cs])
            simp only [removeAllF, if_true, hma]
            simp [removeLines, hm, joinLF]
      · have hmf : lineMatches key l = false := by simpa using hm
        have hma : matchAssign key l = none := by
          have h1 := @matchAssign_seg_neg key l [] hkLT hlg hmf (by rfl)
          simpa using h1
        rcases l with _ | ⟨c, cs⟩
        · show removeAllF key fuel true [] = joinLF (removeLines key [[]])
          rw [removeAllF_nil]
          simp [removeLines, lineMatches_nil hk, joinLF]
        · cases fuel with
          | zero => simp [joinLF] at hf
          | succ f =>
            show removeAllF key (f + 1) true (c :: cs) = joinLF (removeLines key [c :: cs])
            simp only [removeAllF, if_true, hma]
            simp only [ltFree, List.all_cons, Bool.and_eq_true] at hlLT
            have hc : isLineTerm c = false := by simpa [notLT] using hlLT.1
            rw [hc]
            have hlen : (cs ++ ([] : Str)).length ≤ f := by
              simp only [List.append_nil]
              have : (joinLF [List.cons c cs]).length = cs.length + 1 := by simp [joinLF]
              omega
            have h2 := @removeAllF_false_ltFree key cs [] f hlLT.2 hlen
            rw [removeAllF_nil] at h2
            simp only [List.append_nil] at h2
            rw [h2]
            simp [removeLines, hmf, joinLF]
    | cons l2 ls2 =>
      have hjoin : joinLF (l :: l2 :: ls2) = l ++ '\n' :: joinLF (l2 :: ls2) :=
        joinLF_cons_of_ne_nil (by simp)
      have hRne : removeLines key (l2 :: ls2) ≠ [] := removeLines_ne_nil (by simp)
      have hlenj : (joinLF (l :: l2 :: ls2)).length =
          l.length + 1 + (joinLF (l2 :: ls2)).length := by
        rw [hjoin]
        simp [List.length_append]
        omega
      have hih := fun hfl => ih (joinLF (l2 :: ls2)).length
        (fun x hx => hLT x (by simp [hx])) (fun x hx => hg x (by simp [hx])) hfl
      by_cases hm : lineMatches key l = true
      · have hma : matchAssign key (l ++ '\n' :: joinLF (l2 :: ls2)) =
            some (l, '\n' :: joinLF (l2 :: ls2)) :=
          matchAssign_seg_pos hlLT hlg hm (ltHeadedB_newline _)
        rcases l with _ | ⟨c, cs⟩
        · exact absurd rfl (lineMatches_ne_nil hk hm)
        · cases fuel with
          | zero => omega
          | succ f =>
            rw [hjoin, List.cons_append]
            rw [List.cons_append] at hma
            simp only [removeAllF, if_true, hma, if_pos rfl]
            rw [removeAllF_congr key f (by simp at hlenj ⊢; omega) (le_refl _)]
            rw [hih (le_refl _)]
            simp [removeLines, hm]
      · have hmf : lineMatches key l = false := by simpa using hm
        have hma : matchAssign key (l ++ '\n' :: joinLF (l2 :: ls2)) = none :=
          matchAssign_seg_neg hkLT hlg hmf (ltHeadedB_newline _)
        rcases l with _ | ⟨c, cs⟩
        · rw [hjoin, List.nil_append]
          rw [removeAllF_newline key hk hkLT _ fuel true
            (by simp only [List.length_cons] at hlenj ⊢; simp at hlenj; omega)]
          rw [hih (le_refl _)]
          have hstep : removeLines key ([] :: l2 :: ls2) = [] :: removeLines key (l2 :: ls2) := by
            rw [removeLines, if_neg (by simp [lineMatches_nil hk])]
          rw [hstep, joinLF_cons_of_ne_nil hRne, List.nil_append]
        · cases fuel with
          | zero => omega
          | succ f =>
            rw [hjoin, List.cons_append]
            rw [List.cons_append] at hma
            simp only [removeAllF, if_true, hma]
            simp only [ltFree, List.all_cons, Bool.and_eq_true] at hlLT
            have hc : isLineTerm c = false := by simpa [notLT] using hlLT.1
            rw [hc]
            have hlen2 : (cs ++ '\n' :: joinLF (l2 :: ls2)).length ≤ f := by
              simp only [List.length_append, List.length_cons]
              simp at hlenj
              omega
            rw [@removeAllF_false_ltFree key cs ('\n' :: joinLF (l2 :: ls2)) f hlLT.2 hlen2]
            rw [removeAllF_newline key hk hkLT _ _ false (le_refl _)]
            rw [hih (le_refl _)]
            have hstep : removeLines key ((c :: cs) :: l2 :: ls2) =
                (c :: cs) :: removeLines key (l2 :: ls2) := by
              rw [removeLines, if_neg (by simp [hmf])]
            rw [hstep, joinLF_cons_of_ne_nil hRne, List.cons_append]

theorem removeAllF_of_find_none {key : Str} : ∀ {s : Str} (fuel : Nat) (b : Bool),
    s.length ≤ fuel → findAssign key b s = none → removeAllF key fuel b s = s := by
  intro s
  induction s with
  | nil => intro fuel b _ _; exact removeAllF_nil ..
  | cons c cs ih =>
    intro fuel b hf hfind
    cases fuel with
    | zero => simp at hf
    | succ f =>
      have hma : (if b then matchAssign key (c :: cs) else none) = none := by
        cases hx : (if b then matchAssign key (c :: cs) else none) with
        | none => rfl
        | some x =>
          obtain ⟨m, r⟩ := x
          simp only [findAssign, hx] at hfind
          exact absurd hfind (by simp)
      have hrec : findAssign key (isLineTerm c) cs = none := by
        cases hx : findAssign key (isLineTerm c) cs with
        | none => rfl
        | some x =>
          obtain ⟨p, m, r⟩ := x
          simp only [findAssign, hma, hx] at hfind
          exact absurd hfind (by simp)
      simp only [removeAllF, hma]
      rw [ih f (isLineTerm c) (by simp at hf; omega) hrec]

/-- When the check pattern has no match, the global removal is already the
identity, so the pre-check of `removeDnsConfig` never changes the result. -/
theorem removeAll_id_of_find_none {key s : Str} (h : findAssign key true s = none) :
    removeAll key s = s :=
  removeAllF_of_find_none s.length true (le_refl _) h

/-- The DNS strip of `main.ts` on well-formed content is exactly the
spec-side removal of the matching lines. -/
theorem removeDnsConfig_lines (segs : List Str) (hLT : ∀ l ∈ segs, ltFree l = true)
    (hg : ∀ l ∈ segs, goodSeg dnsKey l = true) :
    removeDnsConfig (joinLF segs) = joinLF (removeLines dnsKey segs) := by
  have hk : dnsKey ≠ [] := by decide
  have hkLT : ltFree dnsKey = true := by decide
  have hfa := findAssign_lines hk hkLT segs hLT hg
  unfold removeDnsConfig
  cases hf : findLines dnsKey segs with
  | none =>
    rw [hf] at hfa
    rw [hfa]
    simp only [Option.isSome_none, Bool.false_eq_true, if_false]
    rw [removeLines_no_match_id (findLines_none_no_match hf)]
  | some x =>
    rw [hf] at hfa
    rw [hfa]
    simp only [Option.isSome_some, if_true]
    exact removeAll_lines hk hkLT segs (joinLF segs).length hLT hg (le_refl _)

theorem charValidNat (c : Char) : c.toNat < 55296 ∨ (57343 < c.toNat ∧ c.toNat < 1114112) := by
  have h := c.valid
  rcases h with h | ⟨h1, h2⟩
  · left; simpa [Char.toNat] using h
  · right; exact ⟨by simpa [Char.toNat] using h1, by simpa [Char.toNat] using h2⟩

theorem unbase64_enc : ∀ v : Nat, v < 64 →
    unbase64 (base64Alphabet.getD v 'A') = some v ∧ ¬(base64Alphabet.getD v 'A' = '=') := by
  decide

theorem collectVals_cons_valid {c : Char} {v : Nat} (cs : Str) (h1 : unbase64 c = some v)
    (h2 : ¬(c = '=')) : collectVals (c :: cs) = v :: collectVals cs := by
  simp [collectVals, h2, h1]

/-- Node's lenient decoder is a left inverse of the standard encoder. -/
theorem decodeGroups_collect_enc : ∀ (bytes : List Nat), (∀ b ∈ bytes, b < 256) →
    decodeGroups (collectVals (base64EncodeBytes bytes)) = bytes
  | [], _ => rfl
  | [b], h => by
    have hb : b < 256 := h b (by simp)
    have h1 := unbase64_enc (b / 4) (by omega)
    have h2 := unbase64_enc (b % 4 * 16) (by omega)
    simp only [base64EncodeBytes]
    rw [collectVals_cons_valid _ h1.1 h1.2, collectVals_cons_valid _ h2.1 h2.2]
    rw [show collectVals ['=', '='] = [] from rfl]
    simp only [decodeGroups]
    rw [show b / 4 * 4 + b % 4 * 16 / 16 = b from by omega]
  | [b1, b2], h => by
    have hb1 : b1 < 256 := h b1 (by simp)
    have hb2 : b2 < 256 := h b2 (by simp)
    have h1 := unbase64_enc (b1 / 4) (by omega)
    have h2 := unbase64_enc (b1 % 4 * 16 + b2 / 16) (by omega)
    have h3 := unbase64_enc (b2 % 16 * 4) (by omega)
    simp only [base64EncodeBytes]
    rw [collectVals_cons_valid _ h1.1 h1.2, collectVals_cons_valid _ h2.1 h2.2,
      collectVals_cons_valid _ h3.1 h3.2]
    rw [show collectVals ['='] = [] from rfl]
    simp only [decodeGroups]
    rw [show b1 / 4 * 4 + (b1 % 4 * 16 + b2 / 16) / 16 = b1 from by omega,
      show (b1 % 4 * 16 + b2 / 16) % 16 * 16 + b2 % 16 * 4 / 4 = b2 from by omega]
  | b1 :: b2 :: b3 :: b4 :: rest, h => by
    have hb1 : b1 < 256 := h b1 (by simp)
    have hb2 : b2 < 256 := h b2 (by simp)
    have hb3 : b3 < 256 := h b3 (by simp)
    have h1 := unbase64_enc (b1 / 4) (by omega)
    have h2 := unbase64_enc (b1 % 4 * 16 + b2 / 16) (by omega)
    have h3 := unbase64_enc (b2 % 16 * 4 + b3 / 64) (by omega)
    have h4 := unbase64_enc (b3 % 64) (by omega)
    have hrec := decodeGroups_collect_enc (b4 :: rest) fun x hx => h x (by simp [hx])
    simp only [base64EncodeBytes]
    rw [collectVals_cons_valid _ h1.1 h1.2, collectVals_cons_valid _ h2.1 h2.2,
      collectVals_cons_valid _ h3.1 h3.2, collectVals_cons_valid _ h4.1 h4.2]
    simp only [decodeGroups]
    rw [show b1 / 4 * 4 + (b1 % 4 * 16 + b2 / 16) / 16 = b1 from by omega,
      show (b1 % 4 * 16 + b2 / 16) % 16 * 16 + (b2 % 16 * 4 + b3 / 64) / 4 = b2 from by omega,
      show (b2 % 16 * 4 + b3 / 64) % 4 * 64 + b3 % 64 = b3 from by omega, hrec]
  | [b1, b2, b3], h => by
    have hb1 : b1 < 256 := h b1 (by simp)
    have hb2 : b2 < 256 := h b2 (by simp)
    have hb3 : b3 < 256 := h b3 (by simp)
    have h1 := unbase64_enc (b1 / 4) (by omega)
    have h2 := unbase64_enc (b1 % 4 * 16 + b2 / 16) (by omega)
    have h3 := unbase64_enc (b2 % 16 * 4 + b3 / 64) (by omega)
    have h4 := unbase64_enc (b3 % 64) (by omega)
    simp only [base64EncodeBytes]
    rw [collectVals_cons_valid _ h1.1 h1.2, collectVals_cons_valid _ h2.1 h2.2,
      collectVals_cons_valid _ h3.1 h3.2, collectVals_cons_valid _ h4.1 h4.2]
    simp only [decodeGroups]
    rw [show b1 / 4 * 4 + (b1 % 4 * 16 + b2 / 16) / 16 = b1 from by omega,
      show (b1 % 4 * 16 + b2 / 16) % 16 * 16 + (b2 % 16 * 4 + b3 / 64) / 4 = b2 from by omega,
      show (b2 % 16 * 4 + b3 / 64) % 4 * 64 + b3 % 64 = b3 from by omega]

theorem utf8EncodeNat_lt {n : Nat} (hn : n < 1114112) : ∀ b ∈ utf8EncodeNat n, b < 256 := by
  intro b hb
  unfold utf8EncodeNat at hb
  split_ifs at hb with h1 h2 h3 <;> simp at hb
  · omega
  · rcases hb with hb | hb <;> omega
  · rcases hb with hb | hb | hb <;> omega
  · rcases hb with hb | hb | hb | hb <;> omega

theorem utf8Encode_lt : ∀ (s : Str), ∀ b ∈ utf8Encode s, b < 256 := by
  intro s
  induction s with
  | nil => intro b hb; simp [utf8Encode] at hb
  | cons c t ih =>
    intro b hb
    simp only [utf8Encode, List.mem_append] at hb
    rcases hb with hb | hb
    · exact utf8EncodeNat_lt (by rcases charValidNat c with h | h <;> omega) b hb
    · exact ih b hb

/-- The decoding fuel is irrelevant as long as it covers the length. -/
theorem utf8DecodeF_congr : ∀ (f1 : Nat) {f2 : Nat} {bs : List Nat}, bs.length ≤ f1 →
    bs.length ≤ f2 → utf8DecodeF f1 bs = utf8DecodeF f2 bs := by
  intro f1
  induction f1 with
  | zero =>
    intro f2 bs h1 _
    have hb : bs = [] := by cases bs <;> simp_all
    subst hb
    cases f2 <;> rfl
  | succ f ih =>
    intro f2 bs h1 h2
    cases bs with
    | nil =>
      cases f2 with
      | zero => rfl
      | succ f2p => rfl
    | cons b bs =>
      cases f2 with
      | zero => simp at h2
      | succ f2p =>
        simp only [List.length_cons] at h1 h2
        by_cases c1 : b < 128
        · simp only [utf8DecodeF, c1, if_true]
          rw [@ih f2p bs (by omega) (by omega)]
        · by_cases c2 : b < 192
          · simp only [utf8DecodeF, c1, c2, if_true, if_false]
            rw [@ih f2p bs (by omega) (by omega)]
          · by_cases c3 : b < 224
            · cases bs with
              | nil => simp only [utf8DecodeF, c1, c2, c3, if_true, if_false]
              | cons b1 bs1 =>
                simp only [utf8DecodeF, c1, c2, c3, if_true, if_false]
                simp only [List.length_cons] at h1 h2
                rw [@ih f2p bs1 (by omega) (by omega)]
            · by_cases c4 : b < 240
              · match bs with
                | [] => simp only [utf8DecodeF, c1, c2, c3, c4, if_true, if_false]
                | [b1] => simp only [utf8DecodeF, c1, c2, c3, c4, if_true, if_false]
                | b1 :: b2 :: bs2 =>
                  simp only [utf8DecodeF, c1, c2, c3, c4, if_true, if_false]
                  simp only [List.length_cons] at h1 h2
                  rw [@ih f2p bs2 (by omega) (by omega)]
              · by_cases c5 : b < 248
                · match bs with
                  | [] => simp only [utf8DecodeF, c1, c2, c3, c4, c5, if_true, if_false]
                  | [b1] => simp only [utf8DecodeF, c1, c2, c3, c4, c5, if_true, if_false]
                  | [b1, b2] => simp only [utf8DecodeF, c1, c2, c3, c4, c5, if_true, if_false]
                  | b1 :: b2 :: b3 :: bs3 =>
                    simp only [utf8DecodeF, c1, c2, c3, c4, c5, if_true, if_false]
                    simp only [List.length_cons] at h1 h2
                    rw [@ih f2p bs3 (by omega) (by omega)]
                · simp only [utf8DecodeF, c1, c2, c3, c4, c5, if_true, if_false]
                  rw [@ih f2p bs (by omega) (by omega)]

/-- Decoding picks up an encoded character exactly. -/
theorem utf8DecodeF_enc_cons (c : Char) (rest : List Nat) :
    ∀ fuel, (utf8EncodeNat c.toNat ++ rest).length ≤ fuel →
    utf8DecodeF fuel (utf8EncodeNat c.toNat ++ rest) =
      c :: utf8DecodeF rest.length rest := by
  intro fuel hf
  have hv := charValidNat c
  by_cases h1 : c.toNat < 128
  · have henc : utf8EncodeNat c.toNat = [c.toNat] := by
      unfold utf8EncodeNat
      rw [if_pos h1]
    rw [henc] at hf ⊢
    cases fuel with
    | zero => simp at hf
    | succ f =>
      show utf8DecodeF (f + 1) (c.toNat :: rest) = _
      simp only [utf8DecodeF, h1, if_true, Char.ofNat_toNat]
      rw [utf8DecodeF_congr f (by simp at hf; omega) (le_refl _)]
  · by_cases h2 : c.toNat < 2048
    · have henc : utf8EncodeNat c.toNat = [192 + c.toNat / 64, 128 + c.toNat % 64] := by
        unfold utf8EncodeNat
        rw [if_neg h1, if_pos h2]
      rw [henc] at hf ⊢
      cases fuel with
      | zero => simp at hf
      | succ f =>
        show utf8DecodeF (f + 1) ((192 + c.toNat / 64) :: (128 + c.toNat % 64) :: rest) = _
        have e1 : ¬(192 + c.toNat / 64 < 128) := by omega
        have e2 : ¬(192 + c.toNat / 64 < 192) := by omega
        have e3 : 192 + c.toNat / 64 < 224 := by omega
        simp only [utf8DecodeF, e1, e2, e3, if_true, if_false]
        have e4 : isCont (128 + c.toNat % 64) = true := by
          simp only [isCont, Bool.and_eq_true, decide_eq_true_eq]
          omega
        have e5 : (192 + c.toNat / 64 - 192) * 64 + (128 + c.toNat % 64 - 128) = c.toNat := by
          omega
        have hchar : utf8Dec2 (192 + c.toNat / 64) (128 + c.toNat % 64) = c := by
          unfold utf8Dec2
          rw [if_pos e4, e5, if_pos (by omega), Char.ofNat_toNat]
        rw [hchar, utf8DecodeF_congr f (by simp at hf; omega) (le_refl _)]
    · by_cases h3 : c.toNat < 65536
      · have henc : utf8EncodeNat c.toNat =
            [224 + c.toNat / 4096, 128 + c.toNat / 64 % 64, 128 + c.toNat % 64] := by
          unfold utf8EncodeNat
          rw [if_neg h1, if_neg h2, if_pos h3]
        rw [henc] at hf ⊢
        cases fuel with
        | zero => simp at hf
        | succ f =>
          show utf8DecodeF (f + 1) ((224 + c.toNat / 4096) :: (128 + c.toNat / 64 % 64) ::
            (128 + c.toNat % 64) :: rest) = _
          have e1 : ¬(224 + c.toNat / 4096 < 128) := by omega
          have e2 : ¬(224 + c.toNat / 4096 < 192) := by omega
          have e3 : ¬(224 + c.toNat / 4096 < 224) := by omega
          have e4 : 224 + c.toNat / 4096 < 240 := by omega
          simp only [utf8DecodeF, e1, e2, e3, e4, if_true, if_false]
          have e5 : (isCont (128 + c.toNat / 64 % 64) && isCont (128 + c.toNat % 64))
              = true := by
            simp only [isCont, Bool.and_eq_true, decide_eq_true_eq]
            omega
          have e6 : (224 + c.toNat / 4096 - 224) * 4096 + (128 + c.toNat / 64 % 64 - 128) * 64 +
              (128 + c.toNat % 64 - 128) = c.toNat := by omega
          have hchar : utf8Dec3 (224 + c.toNat / 4096) (128 + c.toNat / 64 % 64)
              (128 + c.toNat % 64) = c := by
            unfold utf8Dec3
            rw [if_pos e5, e6]
            rw [if_pos ?cond, Char.ofNat_toNat]
            case cond =>
              simp only [Bool.and_eq_true, Bool.not_eq_true', Bool.and_eq_false_iff,
                decide_eq_true_eq, decide_eq_false_iff_not]
              constructor
              · omega
              · rcases hv with h | h
                · left; omega
                · right; omega
          rw [hchar, utf8DecodeF_congr f (by simp at hf; omega) (le_refl _)]
      · have h4 : c.toNat < 1114112 := by rcases hv with h | h <;> omega
        have henc : utf8EncodeNat c.toNat =
            [240 + c.toNat / 262144, 128 + c.toNat / 4096 % 64, 128 + c.toNat / 64 % 64,
             128 + c.toNat % 64] := by
          unfold utf8EncodeNat
          rw [if_neg h1, if_neg h2, if_neg h3]
        rw [henc] at hf ⊢
        cases fuel with
        | zero => simp at hf
        | succ f =>
          show utf8DecodeF (f + 1) ((240 + c.toNat / 262144) :: (128 + c.toNat / 4096 % 64) ::
            (128 + c.toNat / 64 % 64) :: (128 + c.toNat % 64) :: rest) = _
          have e1 : ¬(240 + c.toNat / 262144 < 128) := by omega
          have e2 : ¬(240 + c.toNat / 262144 < 192) := by omega
          have e3 : ¬(240 + c.toNat / 262144 < 224) := by omega
          have e4 : ¬(240 + c.toNat / 262144 < 240) := by omega
          have e5 : 240 + c.toNat / 262144 < 248 := by omega
          simp only [utf8DecodeF, e1, e2, e3, e4, e5, if_true, if_false]
          have e6 : (isCont (128 + c.toNat / 4096 % 64) && isCont (128 + c.toNat / 64 % 64) &&
              isCont (128 + c.toNat % 64)) = true := by
            simp only [isCont, Bool.and_eq_true, decide_eq_true_eq]
            omega
          have e7 : (240 + c.toNat / 262144 - 240) * 262144 + (128 + c.toNat / 4096 % 64 - 128) *
              4096 + (128 + c.toNat / 64 % 64 - 128) * 64 + (128 + c.toNat % 64 - 128)
              = c.toNat := by omega
          have hchar : utf8Dec4 (240 + c.toNat / 262144) (128 + c.toNat / 4096 % 64)
              (128 + c.toNat / 64 % 64) (128 + c.toNat % 64) = c := by
            unfold utf8Dec4
            rw [if_pos e6, e7]
            rw [if_pos ?cond, Char.ofNat_toNat]
            case cond =>
              simp only [Bool.and_eq_true, decide_eq_true_eq]
              omega
          rw [hchar, utf8DecodeF_congr f (by simp at hf; omega) (le_refl _)]

theorem utf8Decode_utf8Encode : ∀ s : Str, utf8Decode (utf8Encode s) = s := by
  suffices h : ∀ s : Str, utf8DecodeF (utf8Encode s).length (utf8Encode s) = s by
    intro s
    exact h s
  intro s
  induction s with
  | nil => rfl
  | cons c t ih =>
    simp only [utf8Encode]
    rw [utf8DecodeF_enc_cons c (utf8Encode t) _ (le_refl _), ih]

/-- The decode chain of `decodeConfig` inverts the standard base64
encoding of the UTF-8 bytes of any string. -/
theorem nodeDecode_enc (s : Str) : nodeBase64ToString (base64EncodeStr s) = s := by
  unfold nodeBase64ToString base64EncodeStr
  rw [decodeGroups_collect_enc (utf8Encode s) (utf8Encode_lt s), utf8Decode_utf8Encode]

theorem replaceLineFirst_cons_match {key n l : Str} (suf : List Str)
    (h : lineMatches key l = true) :
    replaceLineFirst key n (l :: suf) = n :: suf := by
  simp [replaceLineFirst, h]

theorem removeLines_cons_no_match {key l : Str} (suf : List Str)
    (h : lineMatches key l = false) :
    removeLines key (l :: suf) = l :: removeLines key suf := by
  cases suf with
  | nil => simp [removeLines, h]
  | cons a as =>
    simp only [removeLines]
    rw [if_neg (by simp [h])]

theorem replaceLineFirst_decomp (key n : Str) : ∀ segs : List Str,
    (∀ l ∈ segs, lineMatches key l = false) ∨
    ∃ pre l suf, segs = pre ++ l :: suf ∧ (∀ p ∈ pre, lineMatches key p = false) ∧
      lineMatches key l = true ∧
      replaceLineFirst key n segs = pre ++ n :: suf := by
  intro segs
  induction segs with
  | nil => left; simp
  | cons l0 ls ih =>
    by_cases hm : lineMatches key l0 = true
    · right
      exact ⟨[], l0, ls, by simp, by simp, hm, by simp [replaceLineFirst, hm]⟩
    · rcases ih with h | ⟨pre, l, suf, h1, h2, h3, h4⟩
      · left
        intro x hx
        rcases List.mem_cons.mp hx with hx | hx
        · rw [hx]; simpa using hm
        · exact h x hx
      · right
        refine ⟨l0 :: pre, l, suf, by simp [h1], ?_, h3, ?_⟩
        · intro p hp
          rcases List.mem_cons.mp hp with hp | hp
          · rw [hp]; simpa using hm
          · exact h2 p hp
        · simp only [replaceLineFirst]
          rw [if_neg hm, h4]
          simp

theorem removeLines_append_filter {key : Str} : ∀ (pre : List Str) (m : Str) (suf : List Str),
    removeLines key (pre ++ m :: suf) =
      pre.filter (fun l => !lineMatches key l) ++ removeLines key (m :: suf) := by
  intro pre
  induction pre with
  | nil => intro m suf; simp
  | cons p ps ih =>
    intro m suf
    by_cases hm : lineMatches key p = true
    · have hstep : removeLines key (p :: (ps ++ m :: suf)) =
          removeLines key (ps ++ m :: suf) := by
        cases hps : ps ++ m :: suf with
        | nil => simp at hps
        | cons a as => simp [removeLines, hm]
      rw [List.cons_append, hstep, ih]
      simp [List.filter_cons, hm]
    · have hmf : lineMatches key p = false := by simpa using hm
      rw [List.cons_append, removeLines_cons_no_match _ hmf, ih]
      simp [List.filter_cons, hmf]

theorem replaceLineFirst_append_no_match {key n : Str} : ∀ {pre : List Str} (rest : List Str),
    (∀ p ∈ pre, lineMatches key p = false) →
    replaceLineFirst key n (pre ++ rest) = pre ++ replaceLineFirst key n rest := by
  intro pre
  induction pre with
  | nil => intro rest _; simp
  | cons p ps ih =>
    intro rest h
    rw [List.cons_append]
    simp only [replaceLineFirst]
    rw [if_neg (by simp [h p (by simp)]), ih rest fun x hx => h x (by simp [hx])]
    simp

theorem mem_replaceLineFirst {key n : Str} : ∀ {segs : List Str} {l : Str},
    l ∈ replaceLineFirst key n segs → l ∈ segs ∨ l = n := by
  intro segs
  induction segs with
  | nil => intro l hl; simp [replaceLineFirst] at hl
  | cons a as ih =>
    intro l hl
    by_cases hm : lineMatches key a = true
    · rw [replaceLineFirst_cons_match as hm] at hl
      rcases List.mem_cons.mp hl with h | h
      · right; exact h
      · left; simp [h]
    · simp only [replaceLineFirst, if_neg hm] at hl
      rcases List.mem_cons.mp hl with h | h
      · left; simp [h]
      · rcases ih h with h2 | h2
        · left; simp [h2]
        · right; exact h2

theorem mem_removeLines {key : Str} : ∀ {segs : List Str} {l : Str},
    l ∈ removeLines key segs → l ∈ segs ∨ l = [] := by
  intro segs
  induction segs with
  | nil => intro l hl; simp [removeLines] at hl
  | cons a as ih =>
    intro l hl
    cases as with
    | nil =>
      by_cases hm : lineMatches key a = true
      · simp only [removeLines, hm, if_true] at hl
        right
        simpa using hl
      · simp only [removeLines, if_neg hm] at hl
        left
        simpa using hl
    | cons a2 as2 =>
      by_cases hm : lineMatches key a = true
      · simp only [removeLines, hm, if_true] at hl
        rcases ih hl with h | h
        · left; simp [h]
        · right; exact h
      · simp only [removeLines, if_neg hm] at hl
        rcases List.mem_cons.mp hl with h | h
        · left; simp [h]
        · rcases ih h with h2 | h2
          · left; simp [h2]
          · right; exact h2

theorem replaceLineFirst_idem {key n : Str} (hn : lineMatches key n = true) :
    ∀ segs : List Str, replaceLineFirst key n (replaceLineFirst key n segs) =
      replaceLineFirst key n segs := by
  intro segs
  induction segs with
  | nil => rfl
  | cons a as ih =>
    by_cases hm : lineMatches key a = true
    · rw [replaceLineFirst_cons_match as hm, replaceLineFirst_cons_match as hn]
    · have hstep : replaceLineFirst key n (a :: as) = a :: replaceLineFirst key n as := by
        simp only [replaceLineFirst]
        rw [if_neg hm]
      have hstep2 : replaceLineFirst key n (a :: replaceLineFirst key n as) =
          a :: replaceLineFirst key n (replaceLineFirst key n as) := by
        simp only [replaceLineFirst]
        rw [if_neg hm]
      rw [hstep, hstep2, ih]

theorem removeLines_idem {key : Str} (hk : key ≠ []) (segs : List Str) :
    removeLines key (removeLines key segs) = removeLines key segs :=
  removeLines_no_match_id fun l hl => removeLines_no_match hk l hl

/-- Idempotence of the override-then-strip pair at line level. -/
theorem lines_pipeline_idem {n : Str} (hnIps : lineMatches ipsKey n = true)
    (hnDns : lineMatches dnsKey n = false) (segs : List Str) :
    removeLines dnsKey (replaceLineFirst ipsKey n
        (removeLines dnsKey (replaceLineFirst ipsKey n segs))) =
      removeLines dnsKey (replaceLineFirst ipsKey n segs) := by
  have hkIps : ipsKey ≠ [] := by decide
  have hkDns : dnsKey ≠ [] := by decide
  rcases replaceLineFirst_decomp ipsKey n segs with h | ⟨pre, l, suf, h1, h2, h3, h4⟩
  · rw [replaceLineFirst_no_match h]
    have hnom : ∀ x ∈ removeLines dnsKey segs, lineMatches ipsKey x = false := by
      intro x hx
      rcases mem_removeLines hx with hx2 | hx2
      · exact h x hx2
      · rw [hx2]; exact lineMatches_nil hkIps
    rw [replaceLineFirst_no_match hnom, removeLines_idem hkDns]
  · rw [h4, removeLines_append_filter, removeLines_cons_no_match _ hnDns]
    have hpre : ∀ p ∈ pre.filter (fun x => !lineMatches dnsKey x),
        lineMatches ipsKey p = false := by
      intro p hp
      exact h2 p (List.mem_of_mem_filter hp)
    rw [replaceLineFirst_append_no_match _ hpre, replaceLineFirst_cons_match _ hnIps]
    apply removeLines_no_match_id
    intro x hx
    rcases List.mem_append.mp hx with hx | hx
    · have h5 := List.of_mem_filter hx
      simpa using h5
    · rcases List.mem_cons.mp hx with hx | hx
      · rw [hx]; exact hnDns
      · exact removeLines_no_match hkDns x hx

theorem splitLF_ne_nil : ∀ s : Str, splitLF s ≠ [] := by
  intro s
  cases s with
  | nil => simp [splitLF]
  | cons c t =>
    by_cases hc : c = '\n'
    · simp [splitLF, hc]
    · simp only [splitLF, if_neg hc]
      cases splitLF t <;> simp

theorem joinLF_splitLF : ∀ s : Str, joinLF (splitLF s) = s := by
  intro s
  induction s with
  | nil => rfl
  | cons c t ih =>
    by_cases hc : c = '\n'
    · subst hc
      simp only [splitLF, if_true]
      rw [joinLF_cons_of_ne_nil (splitLF_ne_nil t), ih]
      rfl
    · simp only [splitLF, if_neg hc]
      cases hsp : splitLF t with
      | nil => exact absurd hsp (splitLF_ne_nil t)
      | cons l ls =>
        rw [hsp] at ih
        cases ls with
        | nil =>
          show List.cons c l = _
          simp only [joinLF] at ih
          rw [ih]
        | cons l2 ls2 =>
          rw [joinLF_cons_of_ne_nil (by simp), List.cons_append,
            ← joinLF_cons_of_ne_nil (l := l) (by simp), ih]

theorem ltFree_no_newline {l : Str} (hl : ltFree l = true) {c : Char} (hc : c ∈ l) :
    ¬(c = '\n') := by
  intro he
  have h1 := List.all_eq_true.mp hl c hc
  rw [he] at h1
  simp [notLT, isLineTerm, Char.ofNat] at h1

theorem splitLF_ltFree_single : ∀ {l : Str}, ltFree l = true → splitLF l = [l] := by
  intro l
  induction l with
  | nil => intro _; rfl
  | cons c cs ih =>
    intro hl
    have hc : ¬(c = '\n') := ltFree_no_newline hl (by simp)
    have hcs : ltFree cs = true := by
      simp only [ltFree, List.all_cons, Bool.and_eq_true] at hl
      exact hl.2
    simp only [splitLF, if_neg hc, ih hcs]

theorem splitLF_append_newline {l : Str} (rest : Str) (hl : ltFree l = true) :
    splitLF (l ++ '\n' :: rest) = l :: splitLF rest := by
  induction l with
  | nil => simp [splitLF]
  | cons c cs ih =>
    have hc : ¬(c = '\n') := ltFree_no_newline hl (by simp)
    have hcs : ltFree cs = true := by
      simp only [ltFree, List.all_cons, Bool.and_eq_true] at hl
      exact hl.2
    rw [List.cons_append]
    simp only [splitLF, if_neg hc, ih hcs]

theorem splitLF_joinLF : ∀ segs : List Str, segs ≠ [] → (∀ l ∈ segs, ltFree l = true) →
    splitLF (joinLF segs) = segs := by
  intro segs
  induction segs with
  | nil => intro h _; exact absurd rfl h
  | cons l ls ih =>
    intro _ hLT
    cases ls with
    | nil => exact splitLF_ltFree_single (hLT l (by simp))
    | cons l2 ls2 =>
      rw [joinLF_cons_of_ne_nil (by simp), splitLF_append_newline _ (hLT l (by simp)),
        ih (by simp) fun x hx => hLT x (by simp [hx])]

theorem segs_ltFree_of_onlyLF : ∀ {s : Str}, onlyLF s = true →
    ∀ l ∈ splitLF s, ltFree l = true := by
  intro s
  induction s with
  | nil =>
    intro _ l hl
    simp only [splitLF, List.mem_singleton] at hl
    rw [hl]
    rfl
  | cons c t ih =>
    intro h l hl
    simp only [onlyLF, List.all_cons, Bool.and_eq_true] at h
    have ht : onlyLF t = true := h.2
    by_cases hc : c = '\n'
    · simp only [splitLF, if_pos hc] at hl
      rcases List.mem_cons.mp hl with hl | hl
      · rw [hl]; rfl
      · exact ih ht l hl
    · have hcLT : notLT c = true := by
        rcases Bool.or_eq_true .. |>.mp h.1 with h1 | h1
        · exact absurd (by simpa using h1) hc
        · exact h1
      simp only [splitLF, if_neg hc] at hl
      cases hsp : splitLF t with
      | nil => exact absurd hsp (splitLF_ne_nil t)
      | cons a as =>
        rw [hsp] at hl
        rcases List.mem_cons.mp hl with hl | hl
        · rw [hl]
          simp only [ltFree, List.all_cons, Bool.and_eq_true]
          refine ⟨hcLT, ?_⟩
          have := ih ht a (by rw [hsp]; simp)
          exact this
        · exact ih ht l (by rw [hsp]; simp [hl])

theorem goodSeg_nil {key : Str} (hk : key ≠ []) : goodSeg key [] = true := by
  cases key with
  | nil => exact absurd rfl hk
  | cons k ks => simp [goodSeg, dropPrefixCh]

theorem ipsReplacement_cons (v : Str) :
    ipsReplacement v = ipsKey ++ (' ' :: '=' :: ' ' :: v) := rfl

theorem ipsReplacement_facts {v : Str} (hv : v.all (fun c => notLT c && !(c = '$')) = true) :
    lineMatches ipsKey (ipsReplacement v) = true ∧
    lineMatches dnsKey (ipsReplacement v) = false ∧
    ltFree (ipsReplacement v) = true ∧
    goodSeg ipsKey (ipsReplacement v) = true ∧
    goodSeg dnsKey (ipsReplacement v) = true ∧
    (ipsReplacement v).all (fun c => !(c = '$')) = true := by
  have hvsplit : v.all notLT = true ∧ v.all (fun c => !(c = '$')) = true := by
    rw [List.all_eq_true] at hv
    constructor <;> (rw [List.all_eq_true]; intro x hx)
    · exact ((Bool.and_eq_true ..).mp (hv x hx)).1
    · exact ((Bool.and_eq_true ..).mp (hv x hx)).2
  have hdp : dropPrefixCh ipsKey (ipsReplacement v) = some (' ' :: '=' :: ' ' :: v) := by
    rw [ipsReplacement_cons, dropPrefixCh_append]
  have hdw : (' ' :: '=' :: ' ' :: v).dropWhile isJsWs = '=' :: ' ' :: v := by
    rw [List.dropWhile_cons_of_pos (by decide), List.dropWhile_cons_of_neg (by decide)]
  have hdpD : dropPrefixCh dnsKey (ipsReplacement v) = none := rfl
  refine ⟨?_, ?_, ?_, ?_, ?_, ?_⟩
  · simp only [lineMatches, hdp, hdw]
    simp
  · simp only [lineMatches, hdpD]
  · show (("AllowedIPs = ".toList) ++ v).all notLT = true
    rw [List.all_append]
    simp only [Bool.and_eq_true]
    exact ⟨by decide, hvsplit.1⟩
  · simp only [goodSeg, hdp, hdw]
    simp
  · simp only [goodSeg, hdpD]
  · show (("AllowedIPs = ".toList) ++ v).all (fun c => !(c = '$')) = true
    rw [List.all_append]
    simp only [Bool.and_eq_true]
    exact ⟨by decide, hvsplit.2⟩

/-- The post-decode transformation of `run` acts linewise on well-formed
content. -/
theorem transform_steps_lines (v : Str) (keep : Bool) (segs : List Str)
    (hLT : ∀ l ∈ segs, ltFree l = true) (hgI : ∀ l ∈ segs, goodSeg ipsKey l = true)
    (hgD : ∀ l ∈ segs, goodSeg dnsKey l = true)
    (hv : v.all (fun c => notLT c && !(c = '$')) = true) :
    dnsStepKeep keep (ipsStep v (joinLF segs)) =
      joinLF (dnsLinesKeep keep (ipsLinesStep v segs)) := by
  by_cases hve : v.isEmpty = true
  · have h1 : ipsStep v (joinLF segs) = joinLF segs := by
      unfold ipsStep
      rw [if_pos hve]
    have h2 : ipsLinesStep v segs = segs := by
      unfold ipsLinesStep
      rw [if_pos hve]
    rw [h1, h2]
    by_cases hk : keep = true
    · unfold dnsStepKeep dnsLinesKeep
      rw [if_pos hk, if_pos hk]
    · unfold dnsStepKeep dnsLinesKeep
      rw [if_neg hk, if_neg hk]
      exact removeDnsConfig_lines segs hLT hgD
  · have hfacts := ipsReplacement_facts hv
    have h1 : ipsStep v (joinLF segs) =
        joinLF (replaceLineFirst ipsKey (ipsReplacement v) segs) := by
      unfold ipsStep
      rw [if_neg hve]
      exact replaceFirst_lines (by decide) (by decide) hfacts.2.2.2.2.2 segs hLT hgI
    have h2 : ipsLinesStep v segs = replaceLineFirst ipsKey (ipsReplacement v) segs := by
      unfold ipsLinesStep
      rw [if_neg hve]
    rw [h1, h2]
    by_cases hk : keep = true
    · unfold dnsStepKeep dnsLinesKeep
      rw [if_pos hk, if_pos hk]
    · unfold dnsStepKeep dnsLinesKeep
      rw [if_neg hk, if_neg hk]
      apply removeDnsConfig_lines
      · intro l hl
        rcases mem_replaceLineFirst hl with h | h
        · exact hLT l h
        · rw [h]; exact hfacts.2.2.1
      · intro l hl
        rcases mem_replaceLineFirst hl with h | h
        · exact hgD l h
        · rw [h]; exact hfacts.2.2.2.2.1

/-- Output segments of the line-level steps keep the well-formedness
invariants. -/
theorem step_out_props (v : Str) (keep : Bool) (segs : List Str)
    (hLT : ∀ l ∈ segs, ltFree l = true) (hgI : ∀ l ∈ segs, goodSeg ipsKey l = true)
    (hgD : ∀ l ∈ segs, goodSeg dnsKey l = true)
    (hv : v.all (fun c => notLT c && !(c = '$')) = true) :
    (∀ l ∈ dnsLinesKeep keep (ipsLinesStep v segs), ltFree l = true) ∧
    (∀ l ∈ dnsLinesKeep keep (ipsLinesStep v segs), goodSeg ipsKey l = true) ∧
    (∀ l ∈ dnsLinesKeep keep (ipsLinesStep v segs), goodSeg dnsKey l = true) := by
  have hfacts := ipsReplacement_facts hv
  have hmem : ∀ l ∈ dnsLinesKeep keep (ipsLinesStep v segs),
      l ∈ segs ∨ l = ipsReplacement v ∨ l = [] := by
    intro l hl
    have hl2 : l ∈ ipsLinesStep v segs ∨ l = [] := by
      unfold dnsLinesKeep at hl
      by_cases hk : keep = true
      · rw [if_pos hk] at hl; left; exact hl
      · rw [if_neg hk] at hl
        rcases mem_removeLines hl with h | h
        · left; exact h
        · right; exact h
    rcases hl2 with hl2 | hl2
    · unfold ipsLinesStep at hl2
      by_cases hve : v.isEmpty = true
      · rw [if_pos hve] at hl2; left; exact hl2
      · rw [if_neg hve] at hl2
        rcases mem_replaceLineFirst hl2 with h | h
        · left; exact h
        · right; left; exact h
    · right; right; exact hl2
  refine ⟨?_, ?_, ?_⟩ <;> intro l hl <;> rcases hmem l hl with h | h | h
  · exact hLT l h
  · rw [h]; exact hfacts.2.2.1
  · rw [h]; rfl
  · exact hgI l h
  · rw [h]; exact hfacts.2.2.2.1
  · rw [h]; exact goodSeg_nil (by decide)
  · exact hgD l h
  · rw [h]; exact hfacts.2.2.2.2.1
  · rw [h]; exact goodSeg_nil (by decide)

/-- Idempotence of the line-level steps. -/
theorem lines_step_idem (v : Str) (keep : Bool) (segs : List Str)
    (hv : v.all (fun c => notLT c && !(c = '$')) = true) :
    dnsLinesKeep keep (ipsLinesStep v (dnsLinesKeep keep (ipsLinesStep v segs))) =
      dnsLinesKeep keep (ipsLinesStep v segs) := by
  by_cases hve : v.isEmpty = true
  · simp only [ipsLinesStep, if_pos hve]
    by_cases hk : keep = true
    · simp only [dnsLinesKeep, if_pos hk]
    · simp only [dnsLinesKeep, if_neg hk]
      exact removeLines_idem (by decide) segs
  · have hfacts := ipsReplacement_facts hv
    simp only [ipsLinesStep, if_neg hve]
    by_cases hk : keep = true
    · simp only [dnsLinesKeep, if_pos hk]
      exact replaceLineFirst_idem hfacts.1 segs
    · simp only [dnsLinesKeep, if_neg hk]
      exact lines_pipeline_idem hfacts.1 hfacts.2.1 segs

theorem beginsWith_ex : ∀ {n l : Str}, beginsWith n l = true → ∃ t, l = n ++ t := by
  intro n
  induction n with
  | nil => intro l _; exact ⟨l, rfl⟩
  | cons a as ih =>
    intro l h
    cases l with
    | nil => simp [beginsWith] at h
    | cons b bs =>
      simp only [beginsWith, Bool.and_eq_true] at h
      obtain ⟨t, ht⟩ := ih h.2
      have hab : a = b := by simpa using h.1
      exact ⟨t, by simp [hab, ht]⟩

theorem beginsWith_dns {l : Str} (h : beginsWith ("DNS =".toList) l = true) :
    lineMatches dnsKey l = true := by
  obtain ⟨t, ht⟩ := beginsWith_ex h
  subst ht
  have hsplit : (("DNS =".toList : Str) ++ t) = dnsKey ++ (' ' :: '=' :: t) := rfl
  rw [hsplit]
  simp only [lineMatches, dropPrefixCh_append]
  rw [List.dropWhile_cons_of_pos (by decide), List.dropWhile_cons_of_neg (by decide)]
  simp

/-- C1: corrected.  The claim reads the pattern as matching single lines:
"find the first line matching an `AllowedIps = <value>` assignment …
replace that entire line … If no such line exists, the working content is
left unchanged."  The `\s*` of `/^AllowedIPs\s*=.*/m` can also cross line
boundaries, so content with no matching line is still rewritten.  Here no
line of `"AllowedIPs\n= y"` matches the assignment pattern linewise, yet
the override step changes the content. -/
theorem claim_c1_counterexample :
    (∀ l ∈ splitLF ("AllowedIPs\n= y".toList), lineMatches ipsKey l = false) ∧
    ipsStep ("10.0.0.0/8".toList) ("AllowedIPs\n= y".toList) ≠
      ("AllowedIPs\n= y".toList) := by
  decide

/-- C1 (amended): for working content whose only line breaks are LF and
whose lines never end in the key followed by only whitespace, and for a
non-empty override containing no line terminator and no dollar sign, the
override step replaces exactly the first line matching the `AllowedIPs`
assignment with the line `AllowedIPs = <override>` (later lines, matching
or not, are untouched), and when no line matches the content is returned
unchanged. -/
theorem claim_c1_allowed_ips_line_replacement (x v : Str) (hvne : v.isEmpty = false)
    (hv : v.all (fun c => notLT c && !(c = '$')) = true)
    (hLF : onlyLF x = true) (hg : goodSegs ipsKey x = true) :
    ipsStep v x = joinLF (replaceLineFirst ipsKey (ipsReplacement v) (splitLF x)) ∧
    ((∀ l ∈ splitLF x, lineMatches ipsKey l = false) → ipsStep v x = x) := by
  have hsegLT := segs_ltFree_of_onlyLF hLF
  have hsegGI : ∀ l ∈ splitLF x, goodSeg ipsKey l = true := List.all_eq_true.mp hg
  have h1 : ipsStep v x = joinLF (replaceLineFirst ipsKey (ipsReplacement v) (splitLF x)) := by
    conv_lhs => rw [← joinLF_splitLF x]
    unfold ipsStep
    rw [if_neg (by simp [hvne])]
    exact replaceFirst_lines (by decide) (by decide)
      (ipsReplacement_facts hv).2.2.2.2.2 (splitLF x) hsegLT hsegGI
  refine ⟨h1, ?_⟩
  intro hnom
  rw [h1, replaceLineFirst_no_match hnom, joinLF_splitLF]

/-- C1 witness: the amended theorem at a config with two `AllowedIPs`
lines; only the first is replaced. -/
theorem claim_c1_witness :
    ipsStep ("10.0.0.0/8".toList)
        ("[Peer]\nAllowedIPs = 0.0.0.0/0\nAllowedIPs = 9.9.9.9/32\n".toList) =
      joinLF (replaceLineFirst ipsKey (ipsReplacement ("10.0.0.0/8".toList))
        (splitLF ("[Peer]\nAllowedIPs = 0.0.0.0/0\nAllowedIPs = 9.9.9.9/32\n".toList))) ∧
    ((∀ l ∈ splitLF ("[Peer]\nAllowedIPs = 0.0.0.0/0\nAllowedIPs = 9.9.9.9/32\n".toList),
        lineMatches ipsKey l = false) →
      ipsStep ("10.0.0.0/8".toList)
          ("[Peer]\nAllowedIPs = 0.0.0.0/0\nAllowedIPs = 9.9.9.9/32\n".toList) =
        ("[Peer]\nAllowedIPs = 0.0.0.0/0\nAllowedIPs = 9.9.9.9/32\n".toList)) :=
  claim_c1_allowed_ips_line_replacement _ _ (by decide) (by decide) (by decide) (by decide)

/-- C2: corrected.  As for C1, the claim reads the DNS pattern linewise:
no line of `"DNS\n= y"` matches a DNS assignment, yet the strip step
removes the whole content, because `\s*` crosses the line break. -/
theorem claim_c2_counterexample :
    (∀ l ∈ splitLF ("DNS\n= y".toList), lineMatches dnsKey l = false) ∧
    dnsStepKeep false ("DNS\n= y".toList) ≠ ("DNS\n= y".toList) := by
  decide

/-- C2 (amended): for working content whose only line breaks are LF and
whose lines never end in the key followed by only whitespace, the strip
step with the flag off removes exactly the lines matching a DNS
assignment together with their trailing newline (a matching final line
leaves a final empty line), the output has no line starting with
`DNS =`; with the flag on any content is returned byte-identical. -/
theorem claim_c2_dns_strip (x : Str) (hLF : onlyLF x = true)
    (hg : goodSegs dnsKey x = true) :
    dnsStepKeep false x = joinLF (removeLines dnsKey (splitLF x)) ∧
    (∀ l ∈ splitLF (dnsStepKeep false x), beginsWith ("DNS =".toList) l = false) ∧
    (∀ y : Str, dnsStepKeep true y = y) := by
  have hsegLT := segs_ltFree_of_onlyLF hLF
  have hsegGD : ∀ l ∈ splitLF x, goodSeg dnsKey l = true := List.all_eq_true.mp hg
  have h1 : dnsStepKeep false x = joinLF (removeLines dnsKey (splitLF x)) := by
    show removeDnsConfig x = _
    conv_lhs => rw [← joinLF_splitLF x]
    exact removeDnsConfig_lines (splitLF x) hsegLT hsegGD
  refine ⟨h1, ?_, fun y => rfl⟩
  intro l hl
  rw [h1] at hl
  rw [splitLF_joinLF _ (removeLines_ne_nil (splitLF_ne_nil x)) ?ltf] at hl
  case ltf =>
    intro a ha
    rcases mem_removeLines ha with h | h
    · exact hsegLT a h
    · rw [h]; rfl
  have hnm := removeLines_no_match (by decide) l hl
  by_contra hb
  have hb2 : beginsWith ("DNS =".toList) l = true := by simpa using hb
  rw [beginsWith_dns hb2] at hnm
  exact absurd hnm (by simp)

/-- C2 witness: the amended theorem at a config with one DNS line. -/
theorem claim_c2_witness :
    dnsStepKeep false ("[Interface]\nDNS = 1.1.1.1\nMTU = 1300\n".toList) =
      joinLF (removeLines dnsKey (splitLF ("[Interface]\nDNS = 1.1.1.1\nMTU = 1300\n".toList))) ∧
    (∀ l ∈ splitLF (dnsStepKeep false ("[Interface]\nDNS = 1.1.1.1\nMTU = 1300\n".toList)),
      beginsWith ("DNS =".toList) l = false) ∧
    (∀ y : Str, dnsStepKeep true y = y) :=
  claim_c2_dns_strip _ (by decide) (by decide)

/-- C4: confirmed.  Decoding the base64 encoding of any plain-text config
containing `[Interface]` recovers the config exactly. -/
theorem claim_c4_base64_roundtrip (s : Str) (h : containsSub interfaceMarker s = true) :
    decodeConfig (base64EncodeStr s) = s := by
  unfold decodeConfig
  rw [nodeDecode_enc s, if_pos h]

/-- C4 witness at a concrete config. -/
theorem claim_c4_witness :
    decodeConfig (base64EncodeStr ("[Interface]\nPrivateKey = abc\n".toList)) =
      ("[Interface]\nPrivateKey = abc\n".toList) :=
  claim_c4_base64_roundtrip _ (by decide)

/-- C6: confirmed.  The decoder chain is a total function (the model of
Node's lenient decoder cannot throw), so `decodeConfig` either adopts the
decoded text or returns the raw input; whenever the decoded text lacks
the `[Interface]` marker — in particular for valid base64 of marker-free
text — the raw input is returned verbatim. -/
theorem claim_c6_decode_fallback (s : Str) :
    (containsSub interfaceMarker (nodeBase64ToString s) = false → decodeConfig s = s) ∧
    (decodeConfig s = nodeBase64ToString s ∨ decodeConfig s = s) := by
  unfold decodeConfig
  constructor
  · intro h
    rw [if_neg (by simp [h])]
  · by_cases h : containsSub interfaceMarker (nodeBase64ToString s) = true
    · left; rw [if_pos h]
    · right; rw [if_neg h]

/-- C6 witness: valid base64 of `"hello"` is passed through verbatim. -/
theorem claim_c6_witness :
    decodeConfig ("aGVsbG8=".toList) = ("aGVsbG8=".toList) :=
  (claim_c6_decode_fallback _).1 (by decide)

/-- C9: confirmed.  The decode step is a total function whose result is
decided solely by the `[Interface]` check on the lenient decoding, and an
input that is not strictly valid base64 (wrong length, leading `!`) is
still adopted as decoded content because the lenient decoding of its
alphabet characters is exactly `[Interface]`. -/
theorem claim_c9_lenient_decode_total :
    (∀ s : Str, decodeConfig s =
      if containsSub interfaceMarker (nodeBase64ToString s) then nodeBase64ToString s else s) ∧
    isStrictBase64 ("!W0ludGVyZmFjZV0=".toList) = false ∧
    decodeConfig ("!W0ludGVyZmFjZV0=".toList) = interfaceMarker ∧
    ¬(decodeConfig ("!W0ludGVyZmFjZV0=".toList) = ("!W0ludGVyZmFjZV0=".toList)) :=
  ⟨fun _ => rfl, by decide, by decide, by decide⟩

/-- C10: confirmed.  The DNS strip equals the unconditional global
replacement: the pre-check `match` decides only the log line, because the
global removal is the identity when nothing matches. -/
theorem claim_c10_dns_check_redundant (x : Str) :
    removeDnsConfig x = removeAll dnsKey x := by
  unfold removeDnsConfig
  by_cases h : (findAssign dnsKey true x).isSome = true
  · rw [if_pos h]
  · rw [if_neg h]
    have hn : findAssign dnsKey true x = none := by
      cases hf : findAssign dnsKey true x with
      | none => rfl
      | some y => rw [hf] at h; simp at h
    exact (removeAll_id_of_find_none hn).symm

theorem setFailed_not_mem_downCatch (e : JsErr) (m : Str) :
    Event.setFailed m ∉ downCatch e := by
  cases e <;> simp [downCatch]

theorem setFailed_not_mem_outerCatch (e : JsErr) (m : Str) :
    Event.setFailed m ∉ outerCatch e := by
  cases e <;> simp [outerCatch]

theorem saveState_not_mem_transformEvents (cfg v : Str) (keep : Bool) (k2 v2 : Str) :
    Event.saveState k2 v2 ∉ transformEvents cfg v keep := by
  unfold transformEvents
  split_ifs <;> simp

/-- C3: confirmed.  For every combination of outcomes of the probes, the
`down` operation and the delete operation, the teardown phase emits no
`setFailed` event: the inner catch around `wg-quick down` and the
top-level catch both downgrade errors to warnings. -/
theorem claim_c3_cleanup_never_fatal (env : CleanupEnv) (m : Str) :
    Event.setFailed m ∉ cleanupEvents env := by
  obtain ⟨o1, o2, o3, o4⟩ := env
  rcases o1 with _ | e1 <;> rcases o2 with _ | e2 <;> rcases o3 with _ | e3 <;>
    rcases o4 with _ | e4 <;>
    simp [cleanupEvents, stopSection, setFailed_not_mem_downCatch, setFailed_not_mem_outerCatch]

/-- C8: confirmed.  When the interface probe succeeds, `wg-quick down`
fails with an `Error`, and the config probe and deletion succeed, the
teardown trace contains exactly one warning, still contains the `rm`
command for the config file after the failed `down`, and contains no
fatal `setFailed` event. -/
theorem claim_c8_down_failure_soft (m : Str) :
    (cleanupEvents ⟨Outcome.ok, Outcome.fail (JsErr.err m), Outcome.ok, Outcome.ok⟩).countP
        isWarningEv = 1 ∧
    Event.cmd ("sudo".toList) [("rm".toList), ("-f".toList), ("/etc/wireguard/wg0.conf".toList)] ∈
      cleanupEvents ⟨Outcome.ok, Outcome.fail (JsErr.err m), Outcome.ok, Outcome.ok⟩ ∧
    ∀ m2, Event.setFailed m2 ∉
      cleanupEvents ⟨Outcome.ok, Outcome.fail (JsErr.err m), Outcome.ok, Outcome.ok⟩ := by
  refine ⟨?_, ?_, ?_⟩ <;>
    simp [cleanupEvents, stopSection, downCatch, isWarningEv, List.countP_cons,
      List.countP_append, List.countP_nil]

/-- C7: confirmed.  Whenever the config input is supplied and one of the
setup steps 1-6 throws, the run trace ends in the single fatal
`setFailed` event carrying the first error's message wrapped by the
top-level catch, and no `saveState` event — in particular the
`wireguard-started` marker — occurs anywhere in the trace. -/
theorem claim_c7_setup_failfast (env : RunEnv) (cfg : Str) (e : JsErr)
    (hin : env.wgConfigInput = some cfg) (herr : firstSetupErr env = some e) :
    (∃ evs, runEvents env = evs ++ [Event.setFailed (fatalOf e)]) ∧
    (∀ k v, Event.saveState k v ∉ runEvents env) := by
  obtain ⟨inp, ips, keep, o1, o2, o3, o4, o5, o6, o7, o8⟩ := env
  dsimp only at hin
  subst hin
  cases o1 with
  | fail e1 =>
    simp only [firstSetupErr] at herr
    injection herr with he
    subst he
    refine ⟨⟨[Event.info ("Installing WireGuard...".toList), Event.cmd sudoStr aptUpdateArgs],
      by simp [runEvents]⟩, ?_⟩
    intro k v
    simp [runEvents]
  | ok =>
    cases o2 with
    | fail e2 =>
      simp only [firstSetupErr] at herr
      injection herr with he
      subst he
      refine ⟨⟨[Event.info ("Installing WireGuard...".toList), Event.cmd sudoStr aptUpdateArgs,
        Event.cmd sudoStr aptInstallArgs], by simp [runEvents]⟩, ?_⟩
      intro k v
      simp [runEvents]
    | ok =>
      cases o3 with
      | fail e3 =>
        simp only [firstSetupErr] at herr
        injection herr with he
        subst he
        refine ⟨⟨[Event.info ("Installing WireGuard...".toList), Event.cmd sudoStr aptUpdateArgs,
          Event.cmd sudoStr aptInstallArgs] ++ transformEvents cfg ips keep ++
          [Event.info ("Setting up WireGuard configuration...".toList),
           Event.cmd sudoStr mkdirArgs], by simp [runEvents]⟩, ?_⟩
        intro k v
        simp [runEvents, saveState_not_mem_transformEvents]
      | ok =>
        cases o4 with
        | fail e4 =>
          simp only [firstSetupErr] at herr
          injection herr with he
          subst he
          refine ⟨⟨[Event.info ("Installing WireGuard...".toList), Event.cmd sudoStr aptUpdateArgs,
            Event.cmd sudoStr aptInstallArgs] ++ transformEvents cfg ips keep ++
            [Event.info ("Setting up WireGuard configuration...".toList),
             Event.cmd sudoStr mkdirArgs], by simp [runEvents]⟩, ?_⟩
          intro k v
          simp [runEvents, saveState_not_mem_transformEvents]
        | ok =>
          cases o5 with
          | fail e5 =>
            simp only [firstSetupErr] at herr
            injection herr with he
            subst he
            refine ⟨⟨[Event.info ("Installing WireGuard...".toList),
              Event.cmd sudoStr aptUpdateArgs, Event.cmd sudoStr aptInstallArgs] ++
              transformEvents cfg ips keep ++
              [Event.info ("Setting up WireGuard configuration...".toList),
               Event.cmd sudoStr mkdirArgs,
               Event.fileWrite ("/tmp/wg0.conf".toList) (transformConfig cfg ips keep),
               Event.cmd sudoStr mvArgs], by simp [runEvents]⟩, ?_⟩
            intro k v
            simp [runEvents, saveState_not_mem_transformEvents]
          | ok =>
            cases o6 with
            | fail e6 =>
              simp only [firstSetupErr] at herr
              injection herr with he
              subst he
              refine ⟨⟨[Event.info ("Installing WireGuard...".toList),
                Event.cmd sudoStr aptUpdateArgs, Event.cmd sudoStr aptInstallArgs] ++
                transformEvents cfg ips keep ++
                [Event.info ("Setting up WireGuard configuration...".toList),
                 Event.cmd sudoStr mkdirArgs,
                 Event.fileWrite ("/tmp/wg0.conf".toList) (transformConfig cfg ips keep),
                 Event.cmd sudoStr mvArgs, Event.cmd sudoStr chmodArgs],
                by simp [runEvents]⟩, ?_⟩
              intro k v
              simp [runEvents, saveState_not_mem_transformEvents]
            | ok =>
              cases o7 with
              | fail e7 =>
                simp only [firstSetupErr] at herr
                injection herr with he
                subst he
                refine ⟨⟨[Event.info ("Installing WireGuard...".toList),
                  Event.cmd sudoStr aptUpdateArgs, Event.cmd sudoStr aptInstallArgs] ++
                  transformEvents cfg ips keep ++
                  [Event.info ("Setting up WireGuard configuration...".toList),
                   Event.cmd sudoStr mkdirArgs,
                   Event.fileWrite ("/tmp/wg0.conf".toList) (transformConfig cfg ips keep),
                   Event.cmd sudoStr mvArgs, Event.cmd sudoStr chmodArgs,
                   Event.info ("Starting WireGuard connection...".toList),
                   Event.cmd sudoStr wgUpArgs], by simp [runEvents]⟩, ?_⟩
                intro k v
                simp [runEvents, saveState_not_mem_transformEvents]
              | ok =>
                simp only [firstSetupErr] at herr
                exact absurd herr (by simp)

/-- C7 witness: the theorem at a run whose `mv` step fails. -/
theorem claim_c7_witness :
    (∃ evs, runEvents ⟨some ("[Interface]".toList), [], false, Outcome.ok, Outcome.ok,
        Outcome.ok, Outcome.ok, Outcome.fail (JsErr.err ("mv failed".toList)), Outcome.ok,
        Outcome.ok, Outcome.ok⟩ =
      evs ++ [Event.setFailed (fatalOf (JsErr.err ("mv failed".toList)))]) ∧
    (∀ k v, Event.saveState k v ∉
      runEvents ⟨some ("[Interface]".toList), [], false, Outcome.ok, Outcome.ok,
        Outcome.ok, Outcome.ok, Outcome.fail (JsErr.err ("mv failed".toList)), Outcome.ok,
        Outcome.ok, Outcome.ok⟩) :=
  claim_c7_setup_failfast _ _ _ rfl rfl

/-- C5: corrected.  The pipeline is not idempotent for every raw input:
when the DNS strip of the first pass uncovers text that the decode step
of the second pass recognises as base64 of an `[Interface]` config, the
second pass decodes it.  Here the first pass turns
`"DNS =\nW0ludGVyZmFjZV0="` into `"W0ludGVyZmFjZV0="`, and the second
pass decodes that to `"[Interface]"`. -/
theorem claim_c5_counterexample :
    transformConfig (transformConfig ("DNS =\nW0ludGVyZmFjZV0=".toList) [] false) [] false ≠
      transformConfig ("DNS =\nW0ludGVyZmFjZV0=".toList) [] false := by
  decide

/-- C5 (amended): the pipeline is idempotent whenever (a) the decode step
fixes the first pass's output, (b) the decoded content uses only LF line
breaks and its lines never end in a key followed by only whitespace, and
(c) the override contains no line terminator and no dollar sign. -/
theorem claim_c5_pipeline_idem_restricted (raw v : Str) (keep : Bool)
    (hdec : decodeConfig (transformConfig raw v keep) = transformConfig raw v keep)
    (hLF : onlyLF (decodeConfig raw) = true)
    (hgI : goodSegs ipsKey (decodeConfig raw) = true)
    (hgD : goodSegs dnsKey (decodeConfig raw) = true)
    (hv : v.all (fun c => notLT c && !(c = '$')) = true) :
    transformConfig (transformConfig raw v keep) v keep = transformConfig raw v keep := by
  have hsegLT := segs_ltFree_of_onlyLF hLF
  have hsegGI : ∀ l ∈ splitLF (decodeConfig raw), goodSeg ipsKey l = true :=
    List.all_eq_true.mp hgI
  have hsegGD : ∀ l ∈ splitLF (decodeConfig raw), goodSeg dnsKey l = true :=
    List.all_eq_true.mp hgD
  have h1 : transformConfig raw v keep =
      joinLF (dnsLinesKeep keep (ipsLinesStep v (splitLF (decodeConfig raw)))) := by
    unfold transformConfig
    conv_lhs => rw [← joinLF_splitLF (decodeConfig raw)]
    exact transform_steps_lines v keep _ hsegLT hsegGI hsegGD hv
  obtain ⟨hoLT, hoGI, hoGD⟩ :=
    step_out_props v keep (splitLF (decodeConfig raw)) hsegLT hsegGI hsegGD hv
  have h2 : transformConfig (transformConfig raw v keep) v keep =
      joinLF (dnsLinesKeep keep (ipsLinesStep v
        (dnsLinesKeep keep (ipsLinesStep v (splitLF (decodeConfig raw)))))) := by
    rw [show transformConfig (transformConfig raw v keep) v keep =
      dnsStepKeep keep (ipsStep v (decodeConfig (transformConfig raw v keep))) from rfl]
    rw [hdec, h1]
    exact transform_steps_lines v keep _ hoLT hoGI hoGD hv
  rw [h2, lines_step_idem v keep _ hv, ← h1]

/-- C5 witness: idempotence at a concrete config with an `AllowedIPs`
line and a DNS line, override `10.0.0.0/8`, flag off. -/
theorem claim_c5_witness :
    transformConfig
        (transformConfig ("[Peer]\nAllowedIPs = 0.0.0.0/0\nDNS = 9.9.9.9\n".toList)
          ("10.0.0.0/8".toList) false)
        ("10.0.0.0/8".toList) false =
      transformConfig ("[Peer]\nAllowedIPs = 0.0.0.0/0\nDNS = 9.9.9.9\n".toList)
        ("10.0.0.0/8".toList) false :=
  claim_c5_pipeline_idem_restricted _ _ _ (by decide) (by decide) (by decide) (by decide)
    (by decide)
